import Mathlib

/-!
Verification of the NBA power-rankings scripts (`main1.py` … `main9.py`).

The Python sources are shallowly embedded: strings are Lean `String`s over
their ASCII fragment (Python's `str.lower`, the regex classes `\w`/`\s` and
`str.strip` are modelled by their ASCII behaviour, which is exact on every
string the programs manipulate), dates are `Int` (day numbers),
`dt.date.today()` becomes an explicit `today` parameter, network I/O becomes
explicit input batches or oracle functions, and Python exceptions become
`Except`.
-/

namespace NbaPR

/-- Python's `\s` character class (ASCII fragment): space, tab, newline,
carriage return, vertical tab, form feed. -/
def isPySpace (c : Char) : Bool :=
  c = ' ' || c = '\t' || c = '\n' || c = '\r' || c = Char.ofNat 11 || c = Char.ofNat 12

/-- Python's `\w` character class (ASCII fragment): alphanumerics and `_`. -/
def isPyWord (c : Char) : Bool := c.isAlphanum || c = '_'

/-- `str.strip()` on a character list: drop leading and trailing whitespace. -/
def stripL (l : List Char) : List Char :=
  ((l.dropWhile isPySpace).reverse.dropWhile isPySpace).reverse

/-- Python `str.strip()`. -/
def pyStrip (s : String) : String := ⟨stripL s.toList⟩

/-- Python `str.lower()` (ASCII): `Char.toLower` is exactly the ASCII case map. -/
def toLowerL (l : List Char) : List Char := l.map Char.toLower

/-- `re.sub(r"[^\w\s]", " ", s)`: replace every non-word non-space character
by a single space. -/
def punctL (l : List Char) : List Char :=
  l.map fun c => if isPyWord c || isPySpace c then c else ' '

/-- Worker for `re.sub(r"\s+", " ", s)`: the flag records whether the
previous character was whitespace (so each maximal run is emitted as a
single `' '`). -/
def collapseAux : Bool → List Char → List Char
  | _, [] => []
  | prevSpace, c :: rest =>
    if isPySpace c then
      if prevSpace then collapseAux true rest else ' ' :: collapseAux true rest
    else c :: collapseAux false rest

/-- `re.sub(r"\s+", " ", s)`. -/
def collapseL (l : List Char) : List Char := collapseAux false l

/-- The replacement text of `re.sub(r"\bla\b", "los angeles", s)`. -/
def laRepl : List Char := ['l', 'o', 's', ' ', 'a', 'n', 'g', 'e', 'l', 'e', 's']

/-- Word-boundary test after a match: true iff the next position starts with
a non-word character or is the end of the string. -/
def boundaryAfter (l : List Char) : Bool :=
  match l with
  | [] => true
  | c :: _ => !isPyWord c

/-- Worker for `re.sub(r"\bla\b", "los angeles", s)`.  The flag records
whether the previous character of the *original* string was a word
character (`false` at the start); `re.sub` scans left to right and resumes
after each replacement without rescanning the inserted text. -/
def laAux : Bool → List Char → List Char
  | _, [] => []
  | prev, 'l' :: 'a' :: rest =>
    if !prev && boundaryAfter rest then laRepl ++ laAux true rest
    else 'l' :: laAux true ('a' :: rest)
  | prev, c :: rest => c :: laAux (isPyWord c) rest

/-- `re.sub(r"\bla\b", "los angeles", s)`. -/
def laSubL (l : List Char) : List Char := laAux false l

/-- Match detector mirroring `laAux`: true iff `re.sub(r"\bla\b", …)` would
replace something, i.e. iff the scan meets a standalone `la` token. -/
def hasLaAux : Bool → List Char → Bool
  | _, [] => false
  | prev, 'l' :: 'a' :: rest =>
    if !prev && boundaryAfter rest then true
    else hasLaAux true ('a' :: rest)
  | prev, c :: rest => hasLaAux (isPyWord c) rest

/-- `ALIASES` of `main9.py` (the superset used by the registry claims;
`main5.py`/`main8.py` use the first eight entries). -/
def ALIASES : List (String × String) := [
  ("la clippers", "los angeles clippers"),
  ("la lakers", "los angeles lakers"),
  ("ny knicks", "new york knicks"),
  ("portland blazers", "portland trail blazers"),
  ("gs warriors", "golden state warriors"),
  ("okc thunder", "oklahoma city thunder"),
  ("phx suns", "phoenix suns"),
  ("76ers", "philadelphia 76ers"),
  ("san antonio", "san antonio spurs"),
  ("new orleans", "new orleans pelicans")]

/-- The alias-free part of `_clean`: lower, strip, kill punctuation,
collapse whitespace, expand the standalone token `la`, strip. -/
def cleanCore (l : List Char) : List Char :=
  stripL (laSubL (collapseL (punctL (stripL (toLowerL l)))))

/-- `_clean` of `main9.py` (and, over the first eight aliases, of
`main5.py`/`main8.py`): the normalization key of a raw team string. -/
def _clean (s : String) : String :=
  let w : String := ⟨cleanCore s.toList⟩
  (ALIASES.lookup w).getD w

/-- `CANON_TEAMS`: the fixed canonical roster. -/
def CANON_TEAMS : List String := [
  "Atlanta Hawks", "Boston Celtics", "Brooklyn Nets", "Charlotte Hornets", "Chicago Bulls",
  "Cleveland Cavaliers", "Dallas Mavericks", "Denver Nuggets", "Detroit Pistons",
  "Golden State Warriors", "Houston Rockets", "Indiana Pacers", "Los Angeles Clippers",
  "Los Angeles Lakers", "Memphis Grizzlies", "Miami Heat", "Milwaukee Bucks",
  "Minnesota Timberwolves", "New Orleans Pelicans", "New York Knicks",
  "Oklahoma City Thunder", "Orlando Magic", "Philadelphia 76ers", "Phoenix Suns",
  "Portland Trail Blazers", "Sacramento Kings", "San Antonio Spurs", "Toronto Raptors",
  "Utah Jazz", "Washington Wizards"]

/-- Membership in `CANON_SET = {_clean(t) for t in CANON_TEAMS}`. -/
def memCANON_SET (k : String) : Bool := CANON_TEAMS.any (fun t => _clean t == k)

/-- `is_team_name`. -/
def is_team_name (text : String) : Bool := memCANON_SET (_clean text)

/-- `canonicalize`: display form of a known team, otherwise the trimmed
input (the Python `for` loop returns the first roster entry whose key
matches; were it to find none it would fall through to `text.strip()`). -/
def canonicalize (text : String) : String :=
  let key := _clean text
  if memCANON_SET key then
    match CANON_TEAMS.find? (fun t => _clean t == key) with
    | some t => t
    | none => pyStrip text
  else pyStrip text

/-! ### Character-level facts about the ASCII classes and `Char.toLower` -/

theorem char_eq_iff {a b : Char} : a = b ↔ a.toNat = b.toNat :=
  ⟨fun h => by rw [h], fun h => Char.eq_of_val_eq (UInt32.ext h)⟩

theorem char_toNat_ofNat {n : Nat} (h : n < 55296) : (Char.ofNat n).toNat = n := by
  have hv : n.isValidChar := Or.inl h
  simp [Char.ofNat, hv, Char.ofNatAux, Char.toNat, UInt32.toNat, BitVec.toNat_ofNatLt]

theorem char_toLower_eq (c : Char) :
    c.toLower = if c.toNat ≥ 65 ∧ c.toNat ≤ 90 then Char.ofNat (c.toNat + 32) else c := rfl

theorem char_toLower_toLower (c : Char) : (c.toLower).toLower = c.toLower := by
  rw [char_toLower_eq c]
  by_cases h : c.toNat ≥ 65 ∧ c.toNat ≤ 90
  · rw [if_pos h]
    have ht : (Char.ofNat (c.toNat + 32)).toNat = c.toNat + 32 :=
      char_toNat_ofNat (by omega)
    rw [char_toLower_eq, ht, if_neg (by omega)]
  · rw [if_neg h, char_toLower_eq, if_neg h]

theorem isPySpace_iff {c : Char} : isPySpace c = true ↔
    (c.toNat = 32 ∨ c.toNat = 9 ∨ c.toNat = 10 ∨ c.toNat = 13 ∨ c.toNat = 11 ∨ c.toNat = 12) := by
  have h11 : (Char.ofNat 11).toNat = 11 := char_toNat_ofNat (by omega)
  have h12 : (Char.ofNat 12).toNat = 12 := char_toNat_ofNat (by omega)
  simp only [isPySpace, Bool.or_eq_true, decide_eq_true_eq, char_eq_iff (b := ' '),
    char_eq_iff (b := '\t'), char_eq_iff (b := '\n'), char_eq_iff (b := '\r'),
    char_eq_iff (b := Char.ofNat 11), char_eq_iff (b := Char.ofNat 12),
    h11, h12, show (' ' : Char).toNat = 32 from rfl, show ('\t' : Char).toNat = 9 from rfl,
    show ('\n' : Char).toNat = 10 from rfl, show ('\r' : Char).toNat = 13 from rfl]
  tauto

theorem isPySpace_false_of {c : Char} (h : ¬(c.toNat = 32 ∨ c.toNat = 9 ∨ c.toNat = 10 ∨
    c.toNat = 13 ∨ c.toNat = 11 ∨ c.toNat = 12)) : isPySpace c = false := by
  cases hx : isPySpace c
  · rfl
  · exact absurd (isPySpace_iff.mp hx) h

theorem isPySpace_toLower (c : Char) : isPySpace c.toLower = isPySpace c := by
  rw [char_toLower_eq c]
  by_cases h : c.toNat ≥ 65 ∧ c.toNat ≤ 90
  · rw [if_pos h]
    have ht : (Char.ofNat (c.toNat + 32)).toNat = c.toNat + 32 :=
      char_toNat_ofNat (by omega)
    rw [isPySpace_false_of (by omega), isPySpace_false_of (by omega)]
  · rw [if_neg h]

theorem uint32_le_iff {a b : UInt32} : (a ≤ b) ↔ a.toNat ≤ b.toNat := Iff.rfl

theorem isPyWord_iff {c : Char} : isPyWord c = true ↔
    ((65 ≤ c.toNat ∧ c.toNat ≤ 90) ∨ (97 ≤ c.toNat ∧ c.toNat ≤ 122) ∨
     (48 ≤ c.toNat ∧ c.toNat ≤ 57) ∨ c.toNat = 95) := by
  simp only [isPyWord, Char.isAlphanum, Char.isAlpha, Char.isUpper, Char.isLower, Char.isDigit,
    Bool.or_eq_true, Bool.and_eq_true, decide_eq_true_eq, char_eq_iff (b := '_'),
    show ('_' : Char).toNat = 95 from rfl, ge_iff_le, uint32_le_iff,
    show (65 : UInt32).toNat = 65 from rfl, show (90 : UInt32).toNat = 90 from rfl,
    show (97 : UInt32).toNat = 97 from rfl, show (122 : UInt32).toNat = 122 from rfl,
    show (48 : UInt32).toNat = 48 from rfl, show (57 : UInt32).toNat = 57 from rfl]
  show ((65 ≤ c.toNat ∧ c.toNat ≤ 90 ∨ 97 ≤ c.toNat ∧ c.toNat ≤ 122) ∨
    48 ≤ c.toNat ∧ c.toNat ≤ 57) ∨ c.toNat = 95 ↔ _
  tauto

theorem word_not_space {c : Char} (h : isPyWord c = true) : isPySpace c = false := by
  have hw := isPyWord_iff.mp h
  exact isPySpace_false_of (by omega)

theorem space_not_word {c : Char} (h : isPySpace c = true) : isPyWord c = false := by
  cases hw : isPyWord c
  · rfl
  · have h1 := isPyWord_iff.mp hw
    have h2 := isPySpace_iff.mp h
    omega

theorem space_ne_l {c : Char} (h : isPySpace c = true) : c ≠ 'l' := by
  intro he
  subst he
  exact absurd h (by decide)

theorem space_ne_a {c : Char} (h : isPySpace c = true) : c ≠ 'a' := by
  intro he
  subst he
  exact absurd h (by decide)

/-- Characters are word characters or a plain space: the character set that
every `_clean` output is drawn from. -/
def okChar (c : Char) : Bool := isPyWord c || c = ' '

theorem okChar_space {c : Char} (hok : okChar c = true) (hsp : isPySpace c = true) : c = ' ' := by
  rcases Bool.or_eq_true _ _ |>.mp hok with h | h
  · rw [word_not_space h] at hsp
    exact absurd hsp (by simp)
  · exact of_decide_eq_true h

/-! ### `str.strip` is idempotent -/

theorem dropWhile_idem (p : α → Bool) (l : List α) :
    (l.dropWhile p).dropWhile p = l.dropWhile p := by
  induction l with
  | nil => rfl
  | cons a t ih =>
    by_cases h : p a
    · simp only [List.dropWhile_cons, h, if_true, ih]
    · simp only [List.dropWhile_cons, h, if_false]
      simp [h]

theorem dropWhile_eq_self_of_head (p : α → Bool) (l : List α)
    (h : ∀ x ∈ l.head?, p x = false) : l.dropWhile p = l := by
  cases l with
  | nil => rfl
  | cons a t => simp [List.dropWhile_cons, h a (by simp)]

/-- Trailing-whitespace strip (the second half of `str.strip`). -/
def stripR (l : List Char) : List Char := (l.reverse.dropWhile isPySpace).reverse

theorem stripL_eq (l : List Char) : stripL l = stripR (l.dropWhile isPySpace) := rfl

theorem stripR_prefixOf (l : List Char) : stripR l <+: l := by
  have h := List.dropWhile_suffix (l := l.reverse) isPySpace
  have h2 : (l.reverse.dropWhile isPySpace).reverse <+: l.reverse.reverse :=
    List.reverse_prefix.mpr h
  rwa [List.reverse_reverse] at h2

theorem dropWhile_stripR {m : List Char} (hm : m.dropWhile isPySpace = m) :
    (stripR m).dropWhile isPySpace = stripR m := by
  apply dropWhile_eq_self_of_head
  intro x hx
  cases hs : stripR m with
  | nil => rw [hs] at hx; simp at hx
  | cons a t =>
    rw [hs] at hx
    simp only [List.head?_cons, Option.mem_def, Option.some.injEq] at hx
    have hpre := stripR_prefixOf m
    rw [hs] at hpre
    obtain ⟨r, hr⟩ := hpre
    by_cases hp : isPySpace a
    · exfalso
      rw [← hr, List.cons_append, List.dropWhile_cons, if_pos hp] at hm
      have hlen := (List.dropWhile_sublist (l := t ++ r) isPySpace).length_le
      have h2 := congrArg List.length hm
      simp only [List.cons_append, List.length_cons, List.length_append] at h2 hlen
      omega
    · rw [← hx]
      simpa using hp

theorem stripR_stripR (l : List Char) : stripR (stripR l) = stripR l := by
  show ((stripR l).reverse.dropWhile isPySpace).reverse = stripR l
  have h : (stripR l).reverse = l.reverse.dropWhile isPySpace := by
    simp [stripR]
  rw [h, dropWhile_idem]
  simp [stripR]

theorem stripL_idem (l : List Char) : stripL (stripL l) = stripL l := by
  rw [stripL_eq (stripL l), stripL_eq l, dropWhile_stripR (dropWhile_idem _ _),
    stripR_stripR]

theorem mem_stripL {x : Char} {l : List Char} (h : x ∈ stripL l) : x ∈ l := by
  rw [stripL_eq] at h
  exact ((stripR_prefixOf _).sublist.trans (List.dropWhile_sublist _)).mem h

theorem pyStrip_idem (s : String) : pyStrip (pyStrip s) = pyStrip s := by
  show (⟨stripL (stripL s.toList)⟩ : String) = ⟨stripL s.toList⟩
  rw [stripL_idem]

/-! ### Whitespace collapse: output shape and fixed points -/

/-- No two adjacent whitespace characters. -/
def NoAdj (l : List Char) : Prop :=
  l.Chain' (fun a b => ¬(isPySpace a = true ∧ isPySpace b = true))

theorem mem_collapseAux {x : Char} : ∀ {l : List Char} {b : Bool},
    x ∈ collapseAux b l → (x ∈ l ∧ isPySpace x = false) ∨ x = ' '
  | [], _, h => by simp [collapseAux] at h
  | c :: rest, b, h => by
    rw [collapseAux] at h
    by_cases hs : isPySpace c
    · rw [if_pos hs] at h
      cases b with
      | true =>
        simp only [if_true] at h
        rcases mem_collapseAux h with ⟨h2, h4⟩ | h2
        · exact Or.inl ⟨List.mem_cons_of_mem _ h2, h4⟩
        · exact Or.inr h2
      | false =>
        simp only [Bool.false_eq_true, if_false, List.mem_cons] at h
        rcases h with h2 | h2
        · exact Or.inr h2
        · rcases mem_collapseAux h2 with ⟨h3, h4⟩ | h3
          · exact Or.inl ⟨List.mem_cons_of_mem _ h3, h4⟩
          · exact Or.inr h3
    · rw [if_neg hs] at h
      rcases List.mem_cons.mp h with h2 | h2
      · subst h2
        exact Or.inl ⟨List.mem_cons_self _ _, by simpa using hs⟩
      · rcases mem_collapseAux h2 with ⟨h3, h4⟩ | h3
        · exact Or.inl ⟨List.mem_cons_of_mem _ h3, h4⟩
        · exact Or.inr h3

theorem collapseAux_true_head : ∀ (l : List Char),
    ∀ x ∈ (collapseAux true l).head?, isPySpace x = false
  | [], x, hx => by simp [collapseAux] at hx
  | c :: rest, x, hx => by
    rw [collapseAux] at hx
    by_cases hs : isPySpace c
    · rw [if_pos hs, if_pos rfl] at hx
      exact collapseAux_true_head rest x hx
    · rw [if_neg hs] at hx
      simp only [List.head?_cons, Option.mem_def, Option.some.injEq] at hx
      rw [← hx]
      simpa using hs

theorem noAdj_collapseAux : ∀ (l : List Char) (b : Bool), NoAdj (collapseAux b l)
  | [], _ => List.chain'_nil
  | c :: rest, b => by
    rw [collapseAux]
    by_cases hs : isPySpace c
    · rw [if_pos hs]
      cases b with
      | true => simpa using noAdj_collapseAux rest true
      | false =>
        simp only [Bool.false_eq_true, if_false]
        refine (noAdj_collapseAux rest true).cons' ?_
        intro y hy
        have h := collapseAux_true_head rest y hy
        simp [h]
    · rw [if_neg hs]
      refine (noAdj_collapseAux rest false).cons' ?_
      intro y _
      simp [hs]

theorem collapseAux_eq_self : ∀ (l : List Char), (∀ c ∈ l, okChar c = true) → NoAdj l →
    ∀ b : Bool, (b = true → ∀ x ∈ l.head?, isPySpace x = false) → collapseAux b l = l
  | [], _, _, b, _ => by cases b <;> rfl
  | c :: rest, hok, hadj, b, hb => by
    rw [collapseAux]
    by_cases hs : isPySpace c
    · cases b with
      | true =>
        exact absurd (hb rfl c (by simp)) (by simp [hs])
      | false =>
        rw [if_pos hs]
        simp only [Bool.false_eq_true, if_false]
        have hc : c = ' ' := okChar_space (hok c (List.mem_cons_self _ _)) hs
        rw [← hc]
        congr 1
        apply collapseAux_eq_self rest (fun d hd => hok d (List.mem_cons_of_mem _ hd))
          hadj.tail true
        intro _ x hx
        have h := hadj.rel_head? hx
        simp only [hs, true_and] at h
        simpa using h
    · rw [if_neg hs]
      congr 1
      exact collapseAux_eq_self rest (fun d hd => hok d (List.mem_cons_of_mem _ hd))
        hadj.tail false (by simp)

/-! ### The `\bla\b` substitution: heads, membership, and fixed points -/

theorem laAux_head? : ∀ (b : Bool) (l : List Char), (laAux b l).head? = l.head? := by
  intro b l
  induction b, l using laAux.induct with
  | case1 => rfl
  | case2 prev rest h ih => rw [laAux, if_pos h]; rfl
  | case3 prev rest h ih => rw [laAux, if_neg h]; rfl
  | case4 prev c rest h ih =>
    rw [laAux]
    · rfl
    · exact h

theorem laAux_boundaryAfter (b : Bool) (l : List Char) :
    boundaryAfter (laAux b l) = boundaryAfter l := by
  cases l with
  | nil => rfl
  | cons c rest =>
    show boundaryAfter (laAux b (c :: rest)) = boundaryAfter (c :: rest)
    have h := laAux_head? b (c :: rest)
    cases hh : laAux b (c :: rest) with
    | nil => rw [hh] at h; simp at h
    | cons d t =>
      rw [hh] at h
      simp only [List.head?_cons, Option.some.injEq] at h
      rw [boundaryAfter, boundaryAfter, h]

theorem hasLaAux_eq_false_imp : ∀ (b : Bool) (l : List Char),
    hasLaAux b l = false → laAux b l = l := by
  intro b l
  induction b, l using laAux.induct with
  | case1 => intro _; rfl
  | case2 prev rest h ih =>
    intro hno
    rw [hasLaAux, if_pos h] at hno
    exact absurd hno (by simp)
  | case3 prev rest h ih =>
    intro hno
    rw [hasLaAux, if_neg h] at hno
    rw [laAux, if_neg h, ih hno]
  | case4 prev c rest h ih =>
    intro hno
    rw [hasLaAux] at hno
    · rw [laAux]
      · rw [ih hno]
      · exact h
    · exact h

theorem hasLaAux_laRepl_append (b : Bool) (X : List Char) :
    hasLaAux b (laRepl ++ X) = hasLaAux true X := rfl

theorem hasLaAux_laAux : ∀ (b : Bool) (l : List Char),
    hasLaAux b (laAux b l) = false := by
  intro b l
  induction b, l using laAux.induct with
  | case1 => rfl
  | case2 prev rest h ih =>
    rw [laAux, if_pos h, hasLaAux_laRepl_append]
    exact ih
  | case3 prev rest h ih =>
    rw [laAux, if_neg h]
    show hasLaAux prev ('l' :: 'a' :: laAux true rest) = false
    rw [hasLaAux, laAux_boundaryAfter true rest, if_neg h]
    exact ih
  | case4 prev c rest h ih =>
    have hrw : laAux prev (c :: rest) = c :: laAux (isPyWord c) rest := by
      rw [laAux]
      exact h
    have hrw2 : ∀ (b' : Bool) (X : List Char), (∀ rest1, c = 'l' → X = 'a' :: rest1 → False) →
        hasLaAux b' (c :: X) = hasLaAux (isPyWord c) X := by
      intro b' X hX
      rw [hasLaAux]
      exact hX
    rw [hrw]
    by_cases hc : c = 'l'
    · subst hc
      have hside : ∀ rest1, ('l' : Char) = 'l' → laAux (isPyWord 'l') rest = 'a' :: rest1 →
          False := by
        intro rest1 _ hcon
        have hh := laAux_head? (isPyWord 'l') rest
        rw [hcon] at hh
        cases rest with
        | nil => simp [laAux] at hcon
        | cons r0 rt =>
          simp only [List.head?_cons, Option.some.injEq] at hh
          exact h rt rfl (by rw [← hh.symm])
      rw [hrw2 prev _ hside]
      exact ih
    · rw [hrw2 prev _ (fun r1 hceq _ => absurd hceq hc)]
      exact ih

theorem hasLaAux_cons_of {c : Char} {X : List Char} {b : Bool}
    (hX : ∀ rest1, c = 'l' → X = 'a' :: rest1 → False) :
    hasLaAux b (c :: X) = hasLaAux (isPyWord c) X := by
  rw [hasLaAux]
  exact hX

theorem laAux_cons_of {c : Char} {X : List Char} {b : Bool}
    (hX : ∀ rest1, c = 'l' → X = 'a' :: rest1 → False) :
    laAux b (c :: X) = c :: laAux (isPyWord c) X := by
  rw [laAux]
  exact hX

theorem mem_laAux {x : Char} : ∀ {b : Bool} {l : List Char},
    x ∈ laAux b l → x ∈ l ∨ x ∈ laRepl := by
  intro b l
  induction b, l using laAux.induct with
  | case1 => intro h; simp [laAux] at h
  | case2 prev rest h ih =>
    intro hx
    rw [laAux, if_pos h] at hx
    rcases List.mem_append.mp hx with h2 | h2
    · exact Or.inr h2
    · rcases ih h2 with h3 | h3
      · exact Or.inl (List.mem_cons_of_mem _ (List.mem_cons_of_mem _ h3))
      · exact Or.inr h3
  | case3 prev rest h ih =>
    intro hx
    rw [laAux, if_neg h] at hx
    rcases List.mem_cons.mp hx with h2 | h2
    · exact Or.inl (h2 ▸ List.mem_cons_self _ _)
    · rcases ih h2 with h3 | h3
      · exact Or.inl (List.mem_cons_of_mem _ h3)
      · exact Or.inr h3
  | case4 prev c rest h ih =>
    intro hx
    rw [laAux_cons_of h] at hx
    rcases List.mem_cons.mp hx with h2 | h2
    · exact Or.inl (h2 ▸ List.mem_cons_self _ _)
    · rcases ih h2 with h3 | h3
      · exact Or.inl (List.mem_cons_of_mem _ h3)
      · exact Or.inr h3

theorem noAdj_laAux : ∀ (b : Bool) (l : List Char), NoAdj l → NoAdj (laAux b l) := by
  intro b l
  induction b, l using laAux.induct with
  | case1 => intro _; exact List.chain'_nil
  | case2 prev rest h ih =>
    intro hadj
    rw [laAux, if_pos h]
    rw [NoAdj, List.chain'_append]
    have hrepl : List.Chain' (fun a b => ¬(isPySpace a = true ∧ isPySpace b = true)) laRepl := by
      simp only [laRepl, List.chain'_cons, List.chain'_singleton]
      decide
    refine ⟨hrepl, ih hadj.tail.tail, ?_⟩
    intro x hx y _
    have hxs : x = 's' := by
      simp only [laRepl] at hx
      simp at hx
      exact hx.symm
    subst hxs
    intro hcon
    exact absurd hcon.1 (by decide)
  | case3 prev rest h ih =>
    intro hadj
    rw [laAux, if_neg h]
    show NoAdj ('l' :: 'a' :: laAux true rest)
    rw [NoAdj, List.chain'_cons]
    exact ⟨by decide, ih hadj.tail⟩
  | case4 prev c rest h ih =>
    intro hadj
    rw [laAux_cons_of h]
    refine (ih hadj.tail).cons' ?_
    intro y hy
    rw [laAux_head?] at hy
    exact hadj.rel_head? hy

theorem hasLa_all_spaces : ∀ (s : List Char), (∀ c ∈ s, isPySpace c = true) →
    ∀ b, hasLaAux b s = false
  | [], _, _ => rfl
  | c :: s', hsp, b => by
    have hc := hsp c (List.mem_cons_self _ _)
    rw [hasLaAux_cons_of (fun r1 hceq _ => absurd hceq (space_ne_l hc))]
    exact hasLa_all_spaces s' (fun d hd => hsp d (List.mem_cons_of_mem _ hd)) _

theorem boundary_append_spaces {s : List Char} (hsp : ∀ c ∈ s, isPySpace c = true)
    (rest : List Char) : boundaryAfter (rest ++ s) = boundaryAfter rest := by
  cases rest with
  | nil =>
    cases s with
    | nil => rfl
    | cons c s' =>
      have hc := hsp c (List.mem_cons_self _ _)
      show (!isPyWord c) = true
      rw [space_not_word hc]
      rfl
  | cons r0 rt => rfl

theorem hasLa_append_spaces {s : List Char} (hsp : ∀ c ∈ s, isPySpace c = true) :
    ∀ (b : Bool) (m : List Char), hasLaAux b (m ++ s) = hasLaAux b m := by
  intro b m
  induction b, m using hasLaAux.induct with
  | case1 =>
    show hasLaAux _ s = false
    exact hasLa_all_spaces s hsp _
  | case2 prev rest h =>
    show hasLaAux prev ('l' :: 'a' :: (rest ++ s)) = hasLaAux prev ('l' :: 'a' :: rest)
    rw [hasLaAux, hasLaAux, boundary_append_spaces hsp, if_pos h, if_pos h]
  | case3 prev rest h ih =>
    show hasLaAux prev ('l' :: 'a' :: (rest ++ s)) = hasLaAux prev ('l' :: 'a' :: rest)
    rw [hasLaAux, hasLaAux, boundary_append_spaces hsp, if_neg h, if_neg h]
    exact ih
  | case4 prev c rest h ih =>
    show hasLaAux prev (c :: (rest ++ s)) = hasLaAux prev (c :: rest)
    have hside : ∀ rest1, c = 'l' → rest ++ s = 'a' :: rest1 → False := by
      intro rest1 hceq hcon
      cases rest with
      | nil =>
        simp only [List.nil_append] at hcon
        cases s with
        | nil => exact absurd hcon (by simp)
        | cons c0 s' =>
          have hc0 : c0 = 'a' := by injection hcon
          exact absurd hc0 (space_ne_a (hsp c0 (List.mem_cons_self _ _)))
      | cons r0 rt =>
        have hr0 : r0 = 'a' := by injection hcon
        exact h rt hceq (by rw [hr0])
    rw [hasLaAux_cons_of hside, hasLaAux_cons_of h]
    exact ih

theorem hasLa_dropWhile (l : List Char) :
    hasLaAux false (l.dropWhile isPySpace) = hasLaAux false l := by
  induction l with
  | nil => rfl
  | cons c rest ih =>
    by_cases hs : isPySpace c
    · rw [List.dropWhile_cons, if_pos hs, ih,
        hasLaAux_cons_of (fun r1 hceq _ => absurd hceq (space_ne_l hs)), space_not_word hs]
    · rw [List.dropWhile_cons, if_neg hs]

theorem hasLa_stripL {l : List Char} (h : hasLaAux false l = false) :
    hasLaAux false (stripL l) = false := by
  rw [stripL_eq]
  set d := l.dropWhile isPySpace with hd
  have hdla : hasLaAux false d = false := by rw [hd, hasLa_dropWhile]; exact h
  have hsplit : d = stripR d ++ (d.reverse.takeWhile isPySpace).reverse := by
    have h1 : d.reverse.takeWhile isPySpace ++ d.reverse.dropWhile isPySpace = d.reverse :=
      List.takeWhile_append_dropWhile isPySpace d.reverse
    have h2 := congrArg List.reverse h1
    rw [List.reverse_append, List.reverse_reverse] at h2
    exact h2.symm
  have hsp : ∀ c ∈ (d.reverse.takeWhile isPySpace).reverse, isPySpace c = true := by
    intro c hc
    rw [List.mem_reverse] at hc
    exact List.mem_takeWhile_imp hc
  rw [hsplit, hasLa_append_spaces hsp] at hdla
  exact hdla

/-! ### `cleanCore` is idempotent -/

theorem map_eq_self_of_mem {α : Type} {f : α → α} : ∀ {l : List α}, (∀ x ∈ l, f x = x) →
    l.map f = l
  | [], _ => rfl
  | a :: t, h => by
    rw [List.map_cons, h a (List.mem_cons_self _ _),
      map_eq_self_of_mem (fun x hx => h x (List.mem_cons_of_mem _ hx))]

theorem cleanCore_chars {l : List Char} :
    ∀ x ∈ cleanCore l, okChar x = true ∧ x.toLower = x := by
  intro x hx
  have h2 : ∀ y ∈ stripL (toLowerL l), y.toLower = y := by
    intro y hy
    obtain ⟨c, _, hc⟩ := List.mem_map.mp (mem_stripL hy)
    rw [← hc]
    exact char_toLower_toLower c
  have h3 : ∀ y ∈ punctL (stripL (toLowerL l)),
      (isPyWord y || isPySpace y) = true ∧ y.toLower = y := by
    intro y hy
    obtain ⟨c, hcm, hc⟩ := List.mem_map.mp hy
    by_cases hcc : (isPyWord c || isPySpace c) = true
    · rw [if_pos hcc] at hc
      rw [← hc]
      exact ⟨hcc, h2 c hcm⟩
    · rw [if_neg hcc] at hc
      rw [← hc]
      exact ⟨by decide, by decide⟩
  have h4 : ∀ y ∈ collapseL (punctL (stripL (toLowerL l))),
      okChar y = true ∧ y.toLower = y := by
    intro y hy
    rcases mem_collapseAux hy with ⟨hmem, hns⟩ | hsp
    · obtain ⟨hws, hlf⟩ := h3 y hmem
      refine ⟨?_, hlf⟩
      rcases Bool.or_eq_true _ _ |>.mp hws with h | h
      · simp [okChar, h]
      · rw [h] at hns
        exact absurd hns (by simp)
    · subst hsp
      exact ⟨by decide, by decide⟩
  have h5 : ∀ y ∈ laSubL (collapseL (punctL (stripL (toLowerL l)))),
      okChar y = true ∧ y.toLower = y := by
    intro y hy
    rcases mem_laAux hy with hm | hr
    · exact h4 y hm
    · fin_cases hr <;> exact ⟨by decide, by decide⟩
  exact h5 x (mem_stripL hx)

theorem noAdj_cleanCore (l : List Char) : NoAdj (cleanCore l) := by
  have h1 : NoAdj (laSubL (collapseL (punctL (stripL (toLowerL l))))) :=
    noAdj_laAux false _ (noAdj_collapseAux _ false)
  set m := laSubL (collapseL (punctL (stripL (toLowerL l)))) with hm
  show NoAdj (stripL m)
  have hinf : stripL m <:+: m := by
    obtain ⟨r, hr⟩ := stripR_prefixOf (m.dropWhile isPySpace)
    obtain ⟨q, hq⟩ := List.dropWhile_suffix (l := m) isPySpace
    refine ⟨q, r, ?_⟩
    rw [stripL_eq, List.append_assoc, hr, hq]
  exact h1.infix hinf

theorem hasLa_cleanCore (l : List Char) : hasLaAux false (cleanCore l) = false :=
  hasLa_stripL (hasLaAux_laAux false _)

theorem stripL_cleanCore (l : List Char) : stripL (cleanCore l) = cleanCore l :=
  stripL_idem _

theorem cleanCore_idem (l : List Char) : cleanCore (cleanCore l) = cleanCore l := by
  set u := cleanCore l with hu
  have hchars := cleanCore_chars (l := l)
  rw [← hu] at hchars
  have e1 : toLowerL u = u := map_eq_self_of_mem (fun x hx => (hchars x hx).2)
  have e2 : stripL u = u := stripL_cleanCore l
  have e3 : punctL u = u := by
    apply map_eq_self_of_mem
    intro x hx
    have hok := (hchars x hx).1
    rcases Bool.or_eq_true _ _ |>.mp hok with h | h
    · rw [if_pos (by simp [h])]
    · have hx' : x = ' ' := of_decide_eq_true h
      subst hx'
      rw [if_pos (by decide)]
  have e4 : collapseL u = u := by
    apply collapseAux_eq_self u (fun c hc => (hchars c hc).1) (noAdj_cleanCore l)
    simp
  have e5 : laSubL u = u := hasLaAux_eq_false_imp false u (hasLa_cleanCore l)
  show stripL (laSubL (collapseL (punctL (stripL (toLowerL u))))) = u
  rw [e1, e2, e3, e4, e5, e2]

/-! ### `_clean` is idempotent; it absorbs `str.strip` -/

theorem lookup_mem_snd {α β : Type} [BEq α] : ∀ {l : List (α × β)} {k : α} {v : β},
    l.lookup k = some v → v ∈ l.map Prod.snd
  | [], _, _, h => by simp [List.lookup] at h
  | (a, b) :: t, k, v, h => by
    rw [List.lookup] at h
    cases hab : (k == a) with
    | true =>
      rw [hab] at h
      simp only [Option.some.injEq] at h
      subst h
      exact List.mem_cons_self _ _
    | false =>
      rw [hab] at h
      exact List.mem_cons_of_mem _ (lookup_mem_snd h)

theorem alias_values_clean : ∀ v ∈ ALIASES.map Prod.snd, _clean v = v := by decide

theorem clean_idem (s : String) : _clean (_clean s) = _clean s := by
  show _clean ((ALIASES.lookup (⟨cleanCore s.toList⟩ : String)).getD ⟨cleanCore s.toList⟩) =
    (ALIASES.lookup (⟨cleanCore s.toList⟩ : String)).getD ⟨cleanCore s.toList⟩
  cases hlk : ALIASES.lookup (⟨cleanCore s.toList⟩ : String) with
  | some v =>
    simp only [Option.getD_some]
    exact alias_values_clean v (lookup_mem_snd hlk)
  | none =>
    simp only [Option.getD_none]
    show (ALIASES.lookup (⟨cleanCore (cleanCore s.toList)⟩ : String)).getD
      ⟨cleanCore (cleanCore s.toList)⟩ = _
    rw [cleanCore_idem, hlk]
    rfl

theorem stripL_toLowerL (l : List Char) : stripL (toLowerL l) = toLowerL (stripL l) := by
  have hps : (isPySpace ∘ Char.toLower) = isPySpace := funext fun c => isPySpace_toLower c
  show (((l.map Char.toLower).dropWhile isPySpace).reverse.dropWhile isPySpace).reverse =
    (((l.dropWhile isPySpace).reverse.dropWhile isPySpace).reverse).map Char.toLower
  rw [List.dropWhile_map, hps, ← List.map_reverse, List.dropWhile_map, hps, ← List.map_reverse]

theorem cleanCore_stripL (l : List Char) : cleanCore (stripL l) = cleanCore l := by
  show stripL (laSubL (collapseL (punctL (stripL (toLowerL (stripL l)))))) = cleanCore l
  rw [← stripL_toLowerL, stripL_idem]
  rfl

theorem clean_pyStrip (s : String) : _clean (pyStrip s) = _clean s := by
  show (ALIASES.lookup (⟨cleanCore (stripL s.toList)⟩ : String)).getD
      ⟨cleanCore (stripL s.toList)⟩ =
    (ALIASES.lookup (⟨cleanCore s.toList⟩ : String)).getD ⟨cleanCore s.toList⟩
  rw [cleanCore_stripL]

/-! ### `canonicalize`: totality, resolution, fixed points -/

theorem canonicalize_eq (x : String) :
    canonicalize x = if memCANON_SET (_clean x) then
      (match CANON_TEAMS.find? (fun t => _clean t == _clean x) with
       | some t => t
       | none => pyStrip x)
    else pyStrip x := rfl

theorem canon_find_self : ∀ t ∈ CANON_TEAMS,
    CANON_TEAMS.find? (fun u => _clean u == _clean t) = some t := by
  have hall : CANON_TEAMS.all
      (fun t => CANON_TEAMS.find? (fun u => _clean u == _clean t) == some t) = true := by
    decide
  intro t ht
  have h := List.all_eq_true.mp hall t ht
  exact eq_of_beq h

theorem memCANON_SET_self {t : String} (ht : t ∈ CANON_TEAMS) :
    memCANON_SET (_clean t) = true := by
  rw [memCANON_SET]
  exact List.any_eq_true.mpr ⟨t, ht, beq_self_eq_true _⟩

theorem canonicalize_team_self {t : String} (ht : t ∈ CANON_TEAMS) : canonicalize t = t := by
  rw [canonicalize_eq, if_pos (memCANON_SET_self ht), canon_find_self t ht]

theorem is_team_name_pyStrip (x : String) : is_team_name (pyStrip x) = is_team_name x := by
  rw [is_team_name, is_team_name, clean_pyStrip]

theorem list_find_of_any {L : List String} {key : String}
    (h : L.any (fun t => _clean t == key) = true) :
    ∃ t ∈ L, L.find? (fun t => _clean t == key) = some t ∧ _clean t = key := by
  cases hf : L.find? (fun t => _clean t == key) with
  | some t =>
    have hp := List.find?_some (p := fun u => _clean u == key) (a := t) hf
    exact ⟨t, List.mem_of_find?_eq_some hf, rfl, eq_of_beq (by simpa using hp)⟩
  | none =>
    obtain ⟨t, ht, hbt⟩ := List.any_eq_true.mp h
    exact absurd hbt (by simpa using List.find?_eq_none.mp hf t ht)

/-- C7: `canonicalize` is total — on a known name the roster scan always
finds a team (it cannot fall through), and the returned team is the display
form whose key matches the input's key; on an unknown name it returns the
trimmed input unchanged, signalling no error. -/
theorem canonicalize_never_raises (x : String) :
    (is_team_name x = true →
      canonicalize x ∈ CANON_TEAMS ∧ _clean (canonicalize x) = _clean x) ∧
    (is_team_name x = false → canonicalize x = pyStrip x) := by
  constructor
  · intro h
    rw [is_team_name, memCANON_SET] at h
    obtain ⟨t, hmem, hf, hkey⟩ := list_find_of_any h
    rw [canonicalize_eq, if_pos (show memCANON_SET (_clean x) = true from h), hf]
    exact ⟨hmem, by rw [hkey]⟩
  · intro h
    rw [is_team_name] at h
    rw [canonicalize_eq, if_neg (by simp [h])]

/-- Witness for C7 at concrete inputs: "LA Clippers" resolves into the
roster, "not a team" passes through trimmed. -/
theorem canonicalize_never_raises_witness :
    (is_team_name "LA Clippers" = true ∧
      (canonicalize "LA Clippers" ∈ CANON_TEAMS ∧
        _clean (canonicalize "LA Clippers") = _clean "LA Clippers")) ∧
    (is_team_name " not a team " = false ∧
      canonicalize " not a team " = pyStrip " not a team ") :=
  ⟨⟨by decide, (canonicalize_never_raises "LA Clippers").1 (by decide)⟩,
   ⟨by decide, (canonicalize_never_raises " not a team ").2 (by decide)⟩⟩

/-- C8: `_clean` (the normalizer) is idempotent on every string, and it is
case/punctuation/whitespace-insensitive on the documented examples:
`_clean "LA Clippers" = _clean "Los Angeles Clippers" = _clean "la   clippers"`. -/
theorem clean_idempotent_insensitive :
    (∀ x : String, _clean (_clean x) = _clean x) ∧
    _clean "LA Clippers" = _clean "Los Angeles Clippers" ∧
    _clean "Los Angeles Clippers" = _clean "la   clippers" :=
  ⟨clean_idem, by decide, by decide⟩

/-- C9: `canonicalize` is a fixed point on its own output. -/
theorem canonicalize_fixed_point (x : String) :
    canonicalize (canonicalize x) = canonicalize x := by
  cases h : is_team_name x with
  | true =>
    obtain ⟨hmem, _⟩ := (canonicalize_never_raises x).1 h
    exact canonicalize_team_self hmem
  | false =>
    rw [(canonicalize_never_raises x).2 h]
    rw [(canonicalize_never_raises (pyStrip x)).2 (by rw [is_team_name_pyStrip]; exact h)]
    exact pyStrip_idem x

/-! ## The parsed-document model (BeautifulSoup fragment)

A parsed HTML document is a tree of text nodes (`NavigableString`) and
element tags; of the tag attributes only `href` is consulted by the code.
`descendants`, `get_text`, `find_all` and `find("a", href=True)` are
modelled by their documented BeautifulSoup behaviour on such trees. -/

inductive Node where
  | text (s : String)
  | tag (name : String) (href : Option String) (children : List Node)

mutual
def nodeStrings : Node → List String
  | .text s => [s]
  | .tag _ _ cs => nodesStrings cs
def nodesStrings : List Node → List String
  | [] => []
  | n :: ns => nodeStrings n ++ nodesStrings ns
end

mutual
def nodeSelfDesc : Node → List Node
  | .text s => [.text s]
  | .tag nm h cs => .tag nm h cs :: nodesDesc cs
def nodesDesc : List Node → List Node
  | [] => []
  | n :: ns => nodeSelfDesc n ++ nodesDesc ns
end

/-- `node.descendants`: every node strictly below, in document order. -/
def descendants : Node → List Node
  | .text _ => []
  | .tag _ _ cs => nodesDesc cs

def joinSep (sep : String) : List String → String
  | [] => ""
  | [s] => s
  | s :: rest => s ++ sep ++ joinSep sep rest

/-- `node.get_text(sep)`, and `node.get_text(sep, strip=True)` which strips
every string and drops the ones that are whitespace-only. -/
def getText (sep : String) (strip : Bool) (n : Node) : String :=
  if strip then
    joinSep sep (((nodeStrings n).map pyStrip).filter (fun s => s ≠ ""))
  else joinSep sep (nodeStrings n)

def isTagOf (names : List String) : Node → Bool
  | .tag nm _ _ => names.contains nm
  | .text _ => false

/-- `article.find_all([...])`: descendant tags with a matching name, in
document order. -/
def find_all (article : Node) (names : List String) : List Node :=
  (descendants article).filter (isTagOf names)

def isAHref : Node → Bool
  | .tag nm h _ => nm = "a" && h.isSome
  | .text _ => false

def hrefOf : Node → Option String
  | .tag _ h _ => h
  | .text _ => none

/-- Python's `needle in hay` on strings. -/
def occursIn (needle : List Char) : List Char → Bool
  | [] => needle.isEmpty
  | c :: rest => needle.isPrefixOf (c :: rest) || occursIn needle rest

def containsSub (hay needle : String) : Bool := occursIn needle.toList hay.toList

def splitWSAcc (cur : List Char) : List Char → List String
  | [] => if cur.isEmpty then [] else [⟨cur.reverse⟩]
  | c :: rest =>
    if isPySpace c then
      if cur.isEmpty then splitWSAcc [] rest
      else (⟨cur.reverse⟩ : String) :: splitWSAcc [] rest
    else splitWSAcc (c :: cur) rest

/-- `str.split()` with no argument: split on whitespace runs, no empties. -/
def pySplitWS (s : String) : List String := splitWSAcc [] s.toList

/-- `" ".join(s.split())`. -/
def collapseJoin (s : String) : String := joinSep " " (pySplitWS s)

def splitNLAcc (cur : List Char) : List Char → List String
  | [] => [⟨cur.reverse⟩]
  | c :: rest =>
    if c = '\n' then (⟨cur.reverse⟩ : String) :: splitNLAcc [] rest
    else splitNLAcc (c :: cur) rest

/-- Python `str.splitlines()` restricted to `\n` boundaries (the only line
separator occurring in the embedded documents): a trailing newline yields
no final empty entry. -/
def pySplitlines (s : String) : List String :=
  if s.isEmpty then []
  else if s.toList.getLast? = some '\n' then (splitNLAcc [] s.toList).dropLast
  else splitNLAcc [] s.toList

/-! ## RankExtractor: `parse_top_teams_from_article`

The regular expressions of strategies 2 and 3 are compiled by hand with
Python `re` semantics: ordered alternation, greedy `\s+` with backtracking,
lazy `(.+?)`, and `.` not matching a newline. -/

def sepChars : List Char := ['.', ')', '-', '–', '—', ':']

def dashChars : List Char := ['–', '—', '-']

def noNL (l : List Char) : Bool := l.all (fun c => c ≠ '\n')

/-- Does `\s*(?:[–—-]\s+.*|\(.*|$)` match all of `l`? -/
def ordTailOk (l : List Char) : Bool :=
  match l.dropWhile isPySpace with
  | [] => true
  | c :: r2 =>
    (dashChars.contains c &&
      (match r2 with
       | [] => false
       | c2 :: _ => isPySpace c2) &&
      noNL (r2.dropWhile isPySpace)) ||
    (c = '(' && noNL r2)

/-- Lazy `(.+?)`: the shortest nonempty newline-free prefix after which the
tail pattern matches; returns the capture and nothing else. -/
def matchNameAux (acc : List Char) : List Char → Option (List Char)
  | [] => none
  | c :: rest =>
    if c = '\n' then none
    else if ordTailOk rest then some (acc ++ [c])
    else matchNameAux (acc ++ [c]) rest

/-- Backtracking over the greedy `\s+` before the name: try the longest
space run first, then shorter ones. -/
def ordNameFrom (rank : Nat) : Nat → List Char → Option (Nat × String)
  | 0, _ => none
  | k + 1, l =>
    match matchNameAux [] (l.drop (k + 1)) with
    | some name => some (rank, pyStrip ⟨name⟩)
    | none => ordNameFrom rank k l

def digitVal (c : Char) : Nat := c.toNat - 48

/-- After the captured digits: `\s*[\.\)\-–—:]\s+(.+?)…`. -/
def ordAfterDigits (rank : Nat) (l : List Char) : Option (Nat × String) :=
  match l.dropWhile isPySpace with
  | [] => none
  | c :: r2 =>
    if sepChars.contains c then
      ordNameFrom rank ((r2.takeWhile isPySpace).length) r2
    else none

/-- `re.match(r"^\s*(\d{1,2})\s*[\.\)\-–—:]\s+(.+?)\s*(?:[–—-]\s+.*|\(.*|$)", txt)`,
returning `int(m.group(1))` and `m.group(2).strip()`. -/
def matchOrdinal (txt : String) : Option (Nat × String) :=
  match txt.toList.dropWhile isPySpace with
  | [] => none
  | c1 :: rest1 =>
    if c1.isDigit then
      match rest1 with
      | c2 :: rest2 =>
        if c2.isDigit then
          match ordAfterDigits (10 * digitVal c1 + digitVal c2) rest2 with
          | some r => some r
          | none => ordAfterDigits (digitVal c1) rest1
        else ordAfterDigits (digitVal c1) rest1
      | [] => none
    else none

def rankLineClass : List Char := ['.', ')', '-', '–', '—', ':', ' ']

def natDigits (n : Nat) : List Char := (toString n).toList

def checkRankAt (rnk : Nat) (l : List Char) : Bool :=
  (natDigits rnk).isPrefixOf l &&
    (match l.drop (natDigits rnk).length with
     | [] => true
     | c :: _ => rankLineClass.contains c)

/-- `re.match(rf"^(?:#|No\.\s*)?{rnk}(?:[\.\)\-–—: ]|$)", line)` as a Bool. -/
def matchRankLine (rnk : Nat) (line : String) : Bool :=
  let l := line.toList
  checkRankAt rnk l ||
  (match l with
   | '#' :: rest => checkRankAt rnk rest
   | _ => false) ||
  (match l with
   | 'N' :: 'o' :: '.' :: rest => checkRankAt rnk (rest.dropWhile isPySpace)
   | _ => false)

def markerStr (rank : Nat) : String := "#" ++ toString rank

/-- `is_rank_marker`. -/
def is_rank_marker (node : Node) (rank : Nat) : Bool :=
  match node with
  | .text s => pyStrip s = markerStr rank
  | .tag _ _ _ => getText "" true node = markerStr rank

def hrefTeamLink : Option String → Bool
  | some h => h ≠ "" && containsSub h "/team/"
  | none => false

/-- The per-node team scan of Strategy 1 (first roster name contained in
the tag's text, if the text is nonempty). -/
def genericScan (nxt : Node) : Option String :=
  let txt := getText " " true nxt
  if txt ≠ "" then CANON_TEAMS.find? (fun t => containsSub txt t) else none

/-- The forward window scan of Strategy 1: stop at the next rank's marker;
on a `/team/` link whose text is a known team name, canonicalize that;
otherwise the first roster name contained in the tag's text. -/
def scanWindow (rank : Nat) : List Node → Option String
  | [] => none
  | nxt :: rest =>
    if is_rank_marker nxt (rank + 1) then none
    else
      match nxt with
      | .text _ => scanWindow rank rest
      | .tag nm href cs =>
        if nm = "a" && hrefTeamLink href then
          let txt := getText " " true (.tag nm href cs)
          if is_team_name txt then some (canonicalize txt)
          else
            match genericScan (.tag nm href cs) with
            | some t => some t
            | none => scanWindow rank rest
        else
          match genericScan (.tag nm href cs) with
          | some t => some t
          | none => scanWindow rank rest

/-- Strategy 1 for one rank: at each marker occurrence, scan the next 599
nodes (`range(i+1, min(i+600, len(nodes)))`); on failure keep looking for a
later marker occurrence. -/
def strat1Scan (rank : Nat) : List Node → Option String
  | [] => none
  | n :: rest =>
    if is_rank_marker n rank then
      match scanWindow rank (rest.take 599) with
      | some team => some team
      | none => strat1Scan rank rest
    else strat1Scan rank rest

def rankRange (topN : Nat) : List Nat := List.range' 1 topN

/-- Strategy 1's `results` dict as an association list in key order. -/
def strat1Results (nodes : List Node) (topN : Nat) : List (Nat × String) :=
  (rankRange topN).filterMap (fun r => (strat1Scan r nodes).map (fun t => (r, t)))

def blockTags : List String :=
  ["h1", "h2", "h3", "h4", "h5", "p", "li", "strong", "div", "span"]

/-- Strategy 2 candidate from one block tag: ordinal regex on the collapsed
text, name preferred from a `/team/` link, kept only if a known team. -/
def strat2Candidate (t : Node) : Option (Nat × String) :=
  let txt := collapseJoin (getText " " false t)
  match matchOrdinal txt with
  | none => none
  | some (rnk, name0) =>
    let name :=
      match (descendants t).find? isAHref with
      | some a =>
        if containsSub ((hrefOf a).getD "") "/team/" then
          let atxt := getText " " true a
          if atxt = "" then name0 else atxt
        else name0
      | none => name0
    if is_team_name name then some (rnk, canonicalize name) else none

def strat2Candidates (article : Node) : List (Nat × String) :=
  (find_all article blockTags).filterMap strat2Candidate

/-- `if 1 <= rnk <= 30 and rnk not in by_rank: by_rank[rnk] = nm` (dicts
keep first-insertion order). -/
def byRankInsert (m : List (Nat × String)) (rnk : Nat) (nm : String) : List (Nat × String) :=
  if 1 ≤ rnk ∧ rnk ≤ 30 ∧ (m.lookup rnk).isNone then m ++ [(rnk, nm)] else m

def buildByRank (cands : List (Nat × String)) : List (Nat × String) :=
  cands.foldl (fun m p => byRankInsert m p.1 p.2) []

/-- `sorted(by_rank)`: the keys in ascending order. -/
def sortedKeys (m : List (Nat × String)) : List Nat :=
  List.insertionSort (· ≤ ·) (m.map Prod.fst)

/-- `by_rank[rnk] = t`: update in place, else append. -/
def setKey : List (Nat × String) → Nat → String → List (Nat × String)
  | [], k, v => [(k, v)]
  | (k1, v1) :: rest, k, v => if k1 = k then (k, v) :: rest else (k1, v1) :: setKey rest k v

/-- `lines = [l.strip() for l in article.get_text("\n").splitlines()]`. -/
def linesOf (article : Node) : List String :=
  (pySplitlines (getText "\n" false article)).map pyStrip

/-- Strategy 3, one rank: scan the lines for a matching rank pattern; put
the first roster name of the 3-line window into the map (overwriting!), or
stop without writing if the rank was already present. -/
def strat3Go (rnk : Nat) (byRank : List (Nat × String)) : List String → List (Nat × String)
  | [] => byRank
  | line :: rest =>
    if matchRankLine rnk line then
      match CANON_TEAMS.find?
          (fun t => containsSub (joinSep " " (List.take 3 (line :: rest))) t) with
      | some t => setKey byRank rnk t
      | none => if (byRank.lookup rnk).isSome then byRank else strat3Go rnk byRank rest
    else strat3Go rnk byRank rest

/-- Strategy 3 over ranks `1..topN`, starting from Strategy 2's map. -/
def strat3Fill (lines : List String) (byRank : List (Nat × String)) (topN : Nat) :
    List (Nat × String) :=
  (rankRange topN).foldl (fun m r => strat3Go r m lines) byRank

def lookupD (m : List (Nat × String)) (k : Nat) : String := (m.lookup k).getD ""

/-- `parse_top_teams_from_article` of `main5.py`/`main9.py` (their bodies
are identical), with the fetched-and-parsed document passed in as
`article`.  The `.getD ""` defaults stand for Python dict lookups that are
guarded by the branch conditions and can never raise `KeyError`. -/
def parse_top_teams_from_article (url : String) (article : Node) (topN : Nat) :
    Except String (List String) :=
  let nodes := descendants article
  let results := strat1Results nodes topN
  if topN ≤ results.length then
    Except.ok ((rankRange topN).map (lookupD results))
  else
    let byRank2 := buildByRank (strat2Candidates article)
    if byRank2 ≠ [] ∧ topN ≤ byRank2.length then
      Except.ok (((sortedKeys byRank2).take topN).map (lookupD byRank2))
    else
      let byRank3 := strat3Fill (linesOf article) byRank2 topN
      if topN ≤ ((byRank3.map Prod.fst).filter (fun k => 1 ≤ k && k ≤ topN)).length then
        Except.ok ((rankRange topN).map (lookupD byRank3))
      else
        Except.error s!"Could not extract top {topN} teams from the article at {url}"

/-- The rank-to-entity map as it stands when the cascade decides (same
branch conditions as `parse_top_teams_from_article`). -/
def finalRankMap (article : Node) (topN : Nat) : List (Nat × String) :=
  let results := strat1Results (descendants article) topN
  if topN ≤ results.length then results
  else
    let byRank2 := buildByRank (strat2Candidates article)
    if byRank2 ≠ [] ∧ topN ≤ byRank2.length then byRank2
    else strat3Fill (linesOf article) byRank2 topN

/-- Which strategies execute, in order (call-count instrumentation of the
cascade's control flow: a strategy's scan runs iff no earlier strategy
already returned). -/
def strategiesRun (article : Node) (topN : Nat) : List Nat :=
  let results := strat1Results (descendants article) topN
  if topN ≤ results.length then [1]
  else
    let byRank2 := buildByRank (strat2Candidates article)
    if byRank2 ≠ [] ∧ topN ≤ byRank2.length then [1, 2] else [1, 2, 3]

/-! ### Association-list toolkit for the rank maps -/

theorem lookup_isSome_iff {m : List (Nat × String)} {k : Nat} :
    ((m.lookup k).isSome = true) ↔ k ∈ m.map Prod.fst := by
  induction m with
  | nil => simp [List.lookup]
  | cons p rest ih =>
    obtain ⟨a, v⟩ := p
    by_cases h : k = a
    · subst h
      simp [List.lookup]
    · have hb : (k == a) = false := by simpa using h
      simp [List.lookup, hb, ih, h]

theorem setKey_keys : ∀ (m : List (Nat × String)) (k : Nat) (v : String),
    (setKey m k v).map Prod.fst =
      if k ∈ m.map Prod.fst then m.map Prod.fst else m.map Prod.fst ++ [k]
  | [], k, v => by simp [setKey]
  | (a, b) :: rest, k, v => by
    by_cases h : a = k
    · subst h
      simp [setKey]
    · simp only [setKey, if_neg h, List.map_cons, setKey_keys rest k v]
      by_cases h2 : k ∈ rest.map Prod.fst
      · simp [h2, Ne.symm h]
      · simp [h2, Ne.symm h]

theorem setKey_nodup {m : List (Nat × String)} {k : Nat} {v : String}
    (h : (m.map Prod.fst).Nodup) : ((setKey m k v).map Prod.fst).Nodup := by
  rw [setKey_keys]
  by_cases h2 : k ∈ m.map Prod.fst
  · rwa [if_pos h2]
  · rw [if_neg h2]
    simp [List.nodup_append, h, h2]

theorem setKey_lookup_isSome {m : List (Nat × String)} {k r : Nat} {v : String}
    (h : (m.lookup r).isSome = true ∨ r = k) :
    ((setKey m k v).lookup r).isSome = true := by
  rw [lookup_isSome_iff, setKey_keys]
  rcases h with h | h
  · have hm := lookup_isSome_iff.mp h
    by_cases h2 : k ∈ m.map Prod.fst
    · rwa [if_pos h2]
    · rw [if_neg h2]
      exact List.mem_append_left _ hm
  · subst h
    by_cases h2 : r ∈ m.map Prod.fst
    · rwa [if_pos h2]
    · rw [if_neg h2]
      exact List.mem_append_right _ (List.mem_singleton_self r)

theorem strat3Go_isSome : ∀ (lines : List String) (rnk : Nat) (byRank : List (Nat × String))
    (r : Nat), (byRank.lookup r).isSome = true →
    ((strat3Go rnk byRank lines).lookup r).isSome = true
  | [], _, _, _, h => h
  | line :: rest, rnk, byRank, r, h => by
    rw [strat3Go]
    split
    · split
      · exact setKey_lookup_isSome (Or.inl h)
      · split
        · exact h
        · exact strat3Go_isSome rest rnk byRank r h
    · exact strat3Go_isSome rest rnk byRank r h

theorem strat3Go_nodup : ∀ (lines : List String) (rnk : Nat) (byRank : List (Nat × String)),
    (byRank.map Prod.fst).Nodup → ((strat3Go rnk byRank lines).map Prod.fst).Nodup
  | [], _, _, h => h
  | line :: rest, rnk, byRank, h => by
    rw [strat3Go]
    split
    · split
      · exact setKey_nodup h
      · split
        · exact h
        · exact strat3Go_nodup rest rnk byRank h
    · exact strat3Go_nodup rest rnk byRank h

theorem setKey_lookup_other {m : List (Nat × String)} {k r : Nat} {v : String}
    (h : r ≠ k) : (setKey m k v).lookup r = m.lookup r := by
  induction m with
  | nil =>
    have hb : (r == k) = false := by simpa using h
    simp [setKey, List.lookup, hb]
  | cons p rest ih =>
    obtain ⟨a, b⟩ := p
    by_cases ha : a = k
    · subst ha
      have hb : (r == a) = false := by simpa using h
      simp [setKey, List.lookup, hb]
    · simp only [setKey, if_neg ha, List.lookup]
      cases r == a with
      | true => rfl
      | false => exact ih

theorem strat3Go_lookup_other : ∀ (lines : List String) (rnk : Nat)
    (byRank : List (Nat × String)) (r : Nat), r ≠ rnk →
    (strat3Go rnk byRank lines).lookup r = byRank.lookup r
  | [], _, _, _, _ => rfl
  | line :: rest, rnk, byRank, r, h => by
    rw [strat3Go]
    split
    · split
      · exact setKey_lookup_other h
      · split
        · rfl
        · exact strat3Go_lookup_other rest rnk byRank r h
    · exact strat3Go_lookup_other rest rnk byRank r h

theorem foldlGo_isSome (lines : List String) : ∀ (ranks : List Nat)
    (byRank : List (Nat × String)) (r : Nat), (byRank.lookup r).isSome = true →
    ((ranks.foldl (fun m x => strat3Go x m lines) byRank).lookup r).isSome = true
  | [], _, _, h => h
  | rnk :: ranks, byRank, r, h =>
    foldlGo_isSome lines ranks _ r (strat3Go_isSome lines rnk byRank r h)

theorem foldlGo_nodup (lines : List String) : ∀ (ranks : List Nat)
    (byRank : List (Nat × String)), (byRank.map Prod.fst).Nodup →
    (((ranks.foldl (fun m x => strat3Go x m lines) byRank)).map Prod.fst).Nodup
  | [], _, h => h
  | rnk :: ranks, byRank, h =>
    foldlGo_nodup lines ranks _ (strat3Go_nodup lines rnk byRank h)

theorem foldlGo_other (lines : List String) : ∀ (ranks : List Nat)
    (byRank : List (Nat × String)) (r : Nat), r ∉ ranks →
    (ranks.foldl (fun m x => strat3Go x m lines) byRank).lookup r = byRank.lookup r
  | [], _, _, _ => rfl
  | rnk :: ranks, byRank, r, h => by
    have h1 : r ≠ rnk := fun he => h (he ▸ List.mem_cons_self _ _)
    have h2 : r ∉ ranks := fun he => h (List.mem_cons_of_mem _ he)
    rw [List.foldl_cons, foldlGo_other lines ranks _ r h2, strat3Go_lookup_other lines rnk byRank r h1]

/-- C2 (amended): the line-window strategy (3) starts from the
ordinal-prefix strategy's (2) partial map and never loses a resolved rank —
the domain only grows — and ranks outside the re-scanned range `1..topN`
keep their entity; a rank inside `1..topN` that strategy 2 resolved may
however be *overwritten* (see the counterexample), and strategy 1's partial
results are not carried forward at all: strategies 2 and 3 rebuild the map
from scratch. -/
theorem strat3_carries_forward (lines : List String) (byRank : List (Nat × String))
    (topN r : Nat) :
    ((byRank.lookup r).isSome = true →
      ((strat3Fill lines byRank topN).lookup r).isSome = true) ∧
    (r < 1 ∨ topN < r → (strat3Fill lines byRank topN).lookup r = byRank.lookup r) := by
  constructor
  · intro h
    exact foldlGo_isSome lines (rankRange topN) byRank r h
  · intro h
    apply foldlGo_other
    intro hmem
    rw [rankRange, List.mem_range'] at hmem
    obtain ⟨i, hi, he⟩ := hmem
    omega

/-- Witness for C2's amended theorem: a rank resolved by strategy 2
survives strategy 3, and a rank outside the scanned range is untouched. -/
theorem strat3_carries_forward_witness :
    ((strat3Fill ["no rank lines here"] [(2, "Boston Celtics")] 4).lookup 2).isSome = true ∧
    (strat3Fill ["no rank lines here"] [(9, "Miami Heat")] 4).lookup 9 =
      List.lookup 9 [(9, "Miami Heat")] :=
  ⟨(strat3_carries_forward ["no rank lines here"] [(2, "Boston Celtics")] 4 2).1 (by decide),
   (strat3_carries_forward ["no rank lines here"] [(9, "Miami Heat")] 4 9).2 (by omega)⟩

/-! ### Strategy 1 completeness, strategy 2 key structure -/

theorem fmp_length_le (f : Nat → Option String) : ∀ (L : List Nat),
    (L.filterMap (fun r => (f r).map (fun t => (r, t)))).length ≤ L.length
  | [] => Nat.le_refl 0
  | a :: L => by
    rw [List.filterMap_cons]
    cases f a with
    | none => exact Nat.le_succ_of_le (fmp_length_le f L)
    | some t => simpa using fmp_length_le f L

theorem fmp_all_some (f : Nat → Option String) : ∀ (L : List Nat),
    L.length ≤ (L.filterMap (fun r => (f r).map (fun t => (r, t)))).length →
    ∀ r ∈ L, (f r).isSome = true
  | [], _, r, hr => absurd hr (List.not_mem_nil r)
  | a :: L, h, r, hr => by
    cases hfa : f a with
    | none =>
      rw [List.filterMap_cons, hfa] at h
      have h2 : L.length + 1 ≤ (L.filterMap (fun x => (f x).map (fun t => (x, t)))).length := h
      exact absurd (Nat.le_trans h2 (fmp_length_le f L)) (by omega)
    | some t =>
      rw [List.filterMap_cons, hfa] at h
      have h2 : L.length + 1 ≤
          ((a, t) :: L.filterMap (fun x => (f x).map (fun t => (x, t)))).length := h
      rcases List.mem_cons.mp hr with he | hm
      · subst he
        simp [hfa]
      · exact fmp_all_some f L (by simpa using h2) r hm

theorem fmp_lookup_isSome (f : Nat → Option String) : ∀ (L : List Nat),
    (∀ x ∈ L, (f x).isSome = true) → ∀ r ∈ L,
    (((L.filterMap (fun x => (f x).map (fun t => (x, t)))).lookup r)).isSome = true
  | [], _, r, hr => absurd hr (List.not_mem_nil r)
  | a :: L, hall, r, hr => by
    rw [List.filterMap_cons]
    cases hfa : f a with
    | none =>
      exact absurd (hall a (List.mem_cons_self _ _)) (by simp [hfa])
    | some t =>
      show (((a, t) :: L.filterMap (fun x => (f x).map (fun t => (x, t)))).lookup r).isSome = true
      by_cases he : r = a
      · subst he
        simp [List.lookup]
      · have hm : r ∈ L := by
          rcases List.mem_cons.mp hr with h1 | h1
          · exact absurd h1 he
          · exact h1
        have hb : (r == a) = false := by simpa using he
        simp only [List.lookup, hb]
        exact fmp_lookup_isSome f L (fun x hx => hall x (List.mem_cons_of_mem _ hx)) r hm

theorem strat1Results_complete {nodes : List Node} {topN : Nat}
    (h : topN ≤ (strat1Results nodes topN).length) :
    ∀ r ∈ rankRange topN, ((strat1Results nodes topN).lookup r).isSome = true := by
  intro r hr
  have hlen : (rankRange topN).length = topN := by simp [rankRange]
  have hall := fmp_all_some (fun x => strat1Scan x nodes) (rankRange topN) (by rw [hlen]; exact h)
  exact fmp_lookup_isSome (fun x => strat1Scan x nodes) (rankRange topN) hall r hr

theorem byRankInsert_nodup {m : List (Nat × String)} {rnk : Nat} {nm : String}
    (h : (m.map Prod.fst).Nodup) : ((byRankInsert m rnk nm).map Prod.fst).Nodup := by
  rw [byRankInsert]
  split
  · next hc =>
    have hnone : (m.lookup rnk).isNone = true := hc.2.2
    have hnm : rnk ∉ m.map Prod.fst := by
      intro hmem
      have hs := lookup_isSome_iff.mpr hmem
      rw [Option.isNone_iff_eq_none] at hnone
      rw [hnone] at hs
      exact absurd hs (by simp)
    simp [List.nodup_append, h, hnm]
  · exact h

theorem buildByRank_nodup_aux : ∀ (cands : List (Nat × String)) (m : List (Nat × String)),
    (m.map Prod.fst).Nodup →
    ((cands.foldl (fun m p => byRankInsert m p.1 p.2) m).map Prod.fst).Nodup
  | [], m, h => h
  | p :: cands, m, h => buildByRank_nodup_aux cands _ (byRankInsert_nodup h)

theorem buildByRank_nodup (cands : List (Nat × String)) :
    ((buildByRank cands).map Prod.fst).Nodup :=
  buildByRank_nodup_aux cands [] (by simp)

theorem sortedKeys_sorted_lt {m : List (Nat × String)}
    (h : (m.map Prod.fst).Nodup) : List.Sorted (· < ·) (sortedKeys m) := by
  have hs : List.Sorted (· ≤ ·) (sortedKeys m) := List.sorted_insertionSort _ _
  have hperm : List.Perm (sortedKeys m) (m.map Prod.fst) := List.perm_insertionSort _ _
  have hnd : (sortedKeys m).Nodup := hperm.nodup_iff.mpr h
  exact (hs.and hnd).imp (fun hab => Nat.lt_of_le_of_ne hab.1 hab.2)

theorem sortedKeys_mem {m : List (Nat × String)} {k : Nat} (h : k ∈ sortedKeys m) :
    k ∈ m.map Prod.fst :=
  (List.perm_insertionSort _ _).mem_iff.mp h

/-- C1 (amended): whenever `parse_top_teams_from_article` returns without
raising, it returns `topN` entities, read off the cascade's final
rank-to-entity map at a strictly increasing list of `topN` resolved ranks —
exactly the ranks `1..topN` when strategy 1 or 3 decides, but possibly a
rank list with gaps (e.g. `1,2,3,5`) when strategy 2 decides, because that
branch accepts any `topN` resolved ranks in `1..30`; and whenever it
raises, the error message names the source url. -/
theorem parse_ok_ranks (url : String) (article : Node) (topN : Nat) :
    (∀ l, parse_top_teams_from_article url article topN = Except.ok l →
      l.length = topN ∧ ∃ ks : List Nat, List.Sorted (· < ·) ks ∧ ks.length = topN ∧
        (∀ k ∈ ks, ((finalRankMap article topN).lookup k).isSome = true) ∧
        l = ks.map (lookupD (finalRankMap article topN))) ∧
    (∀ e, parse_top_teams_from_article url article topN = Except.error e →
      e = s!"Could not extract top {topN} teams from the article at {url}") := by
  by_cases h1 : topN ≤ (strat1Results (descendants article) topN).length
  · have hp : parse_top_teams_from_article url article topN =
        Except.ok ((rankRange topN).map (lookupD (strat1Results (descendants article) topN))) := by
      rw [parse_top_teams_from_article, if_pos h1]
    have hfm : finalRankMap article topN = strat1Results (descendants article) topN := by
      rw [finalRankMap, if_pos h1]
    constructor
    · intro l hl
      rw [hp] at hl
      injection hl with hl
      subst hl
      refine ⟨by simp [rankRange], rankRange topN, ?_, by simp [rankRange], ?_, by rw [hfm]⟩
      · exact List.pairwise_lt_range' 1 topN
      · intro k hk
        rw [hfm]
        exact strat1Results_complete h1 k hk
    · intro e he
      rw [hp] at he
      exact absurd he (by simp)
  · by_cases h2 : buildByRank (strat2Candidates article) ≠ [] ∧
        topN ≤ (buildByRank (strat2Candidates article)).length
    · have hp : parse_top_teams_from_article url article topN =
          Except.ok (((sortedKeys (buildByRank (strat2Candidates article))).take topN).map
            (lookupD (buildByRank (strat2Candidates article)))) := by
        rw [parse_top_teams_from_article, if_neg h1, if_pos h2]
      have hfm : finalRankMap article topN = buildByRank (strat2Candidates article) := by
        rw [finalRankMap, if_neg h1, if_pos h2]
      constructor
      · intro l hl
        rw [hp] at hl
        injection hl with hl
        subst hl
        have hnd := buildByRank_nodup (strat2Candidates article)
        have hlen : (sortedKeys (buildByRank (strat2Candidates article))).length =
            (buildByRank (strat2Candidates article)).length := by
          rw [sortedKeys, List.length_insertionSort, List.length_map]
        refine ⟨by simp [List.length_take, hlen]; omega,
          (sortedKeys (buildByRank (strat2Candidates article))).take topN,
          ?_, by simp [List.length_take, hlen]; omega, ?_, by rw [hfm]⟩
        · exact (sortedKeys_sorted_lt hnd).sublist (List.take_sublist _ _)
        · intro k hk
          rw [hfm, lookup_isSome_iff]
          exact sortedKeys_mem ((List.take_sublist _ _).mem hk)
      · intro e he
        rw [hp] at he
        exact absurd he (by simp)
    · by_cases h3 : topN ≤ (((strat3Fill (linesOf article)
          (buildByRank (strat2Candidates article)) topN).map Prod.fst).filter
            (fun k => 1 ≤ k && k ≤ topN)).length
      · have hp : parse_top_teams_from_article url article topN =
            Except.ok ((rankRange topN).map (lookupD (strat3Fill (linesOf article)
              (buildByRank (strat2Candidates article)) topN))) := by
          rw [parse_top_teams_from_article, if_neg h1, if_neg h2, if_pos h3]
        have hfm : finalRankMap article topN = strat3Fill (linesOf article)
            (buildByRank (strat2Candidates article)) topN := by
          rw [finalRankMap, if_neg h1, if_neg h2]
        constructor
        · intro l hl
          rw [hp] at hl
          injection hl with hl
          subst hl
          refine ⟨by simp [rankRange], rankRange topN, List.pairwise_lt_range' 1 topN,
            by simp [rankRange], ?_, by rw [hfm]⟩
          intro k hk
          rw [hfm, lookup_isSome_iff]
          set B3 := strat3Fill (linesOf article) (buildByRank (strat2Candidates article)) topN
            with hB3
          set F := (B3.map Prod.fst).filter (fun k => 1 ≤ k && k ≤ topN) with hF
          have hndB : (B3.map Prod.fst).Nodup :=
            foldlGo_nodup (linesOf article) (rankRange topN) _
              (buildByRank_nodup (strat2Candidates article))
          have hndF : F.Nodup := hndB.filter _
          have hsub : F.toFinset ⊆ (rankRange topN).toFinset := by
            intro x hx
            rw [List.mem_toFinset] at hx ⊢
            rw [hF, List.mem_filter] at hx
            rw [rankRange, List.mem_range']
            have := hx.2
            simp only [Bool.and_eq_true, decide_eq_true_eq] at this
            exact ⟨x - 1, by omega, by omega⟩
          have hcard : (rankRange topN).toFinset.card ≤ F.toFinset.card := by
            rw [List.toFinset_card_of_nodup hndF, rankRange,
              List.toFinset_card_of_nodup (List.nodup_range' _ _)]
            simpa using h3
          have heq := Finset.eq_of_subset_of_card_le hsub hcard
          have hkF : k ∈ F := by
            rw [← List.mem_toFinset, heq, List.mem_toFinset]
            exact hk
          rw [hF, List.mem_filter] at hkF
          exact hkF.1
        · intro e he
          rw [hp] at he
          exact absurd he (by simp)
      · have hp : parse_top_teams_from_article url article topN =
            Except.error s!"Could not extract top {topN} teams from the article at {url}" := by
          rw [parse_top_teams_from_article, if_neg h1, if_neg h2, if_neg h3]
        constructor
        · intro l hl
          rw [hp] at hl
          exact absurd hl (by simp)
        · intro e he
          rw [hp] at he
          injection he with he
          exact he.symm

/-- Counterexample document for C1: ordinal-prefix blocks at ranks 1,2,3,5
(no `#r` markers, no rank-4 block). -/
def docC1 : Node := .tag "article" none [
  .tag "p" none [.text "1. Atlanta Hawks"],
  .tag "p" none [.text "2. Boston Celtics"],
  .tag "p" none [.text "3. Brooklyn Nets"],
  .tag "p" none [.text "5. Chicago Bulls"]]

/-- C1 counterexample: on `docC1` strategy 2 resolves ranks 1, 2, 3 and 5;
extraction succeeds and returns the rank-5 entity in the fourth slot while
rank 4 is unresolved — refuting "extraction succeeds only if ranks 1..N are
all populated, with the result exactly the entities for ranks 1..N". -/
theorem parse_succeeds_with_rank_gap :
    parse_top_teams_from_article "u" docC1 4 =
      Except.ok ["Atlanta Hawks", "Boston Celtics", "Brooklyn Nets", "Chicago Bulls"] ∧
    (finalRankMap docC1 4).lookup 4 = none ∧
    (finalRankMap docC1 4).lookup 5 = some "Chicago Bulls" :=
  ⟨rfl, by decide, by decide⟩

/-- Witness for C1's amended theorem, applied at `docC1`. -/
theorem parse_ok_ranks_witness :
    parse_top_teams_from_article "u" docC1 4 =
      Except.ok ["Atlanta Hawks", "Boston Celtics", "Brooklyn Nets", "Chicago Bulls"] ∧
    ((["Atlanta Hawks", "Boston Celtics", "Brooklyn Nets", "Chicago Bulls"] :
        List String).length = 4 ∧
      ∃ ks : List Nat, List.Sorted (· < ·) ks ∧ ks.length = 4 ∧
        (∀ k ∈ ks, ((finalRankMap docC1 4).lookup k).isSome = true) ∧
        ["Atlanta Hawks", "Boston Celtics", "Brooklyn Nets", "Chicago Bulls"] =
          ks.map (lookupD (finalRankMap docC1 4))) :=
  ⟨rfl, (parse_ok_ranks "u" docC1 4).1 _ rfl⟩

/-- Counterexample document for C2: a `#1` marker resolved by strategy 1,
followed by ordinal blocks that let strategy 2 resolve all four ranks with
a different rank-1 team. -/
def docC2 : Node := .tag "article" none [
  .text "#1",
  .tag "a" (some "/team/celtics/") [.text "Boston Celtics"],
  .tag "p" none [.text "1. Atlanta Hawks"],
  .tag "p" none [.text "2. Chicago Bulls"],
  .tag "p" none [.text "3. Miami Heat"],
  .tag "p" none [.text "4. Utah Jazz"]]

/-- C2 counterexample: strategy 1 resolves rank 1 as "Boston Celtics", but
its incomplete partial map is discarded rather than carried forward:
strategy 2 re-attempts every rank and the returned rank-1 entity is
"Atlanta Hawks" — refuting both "a rank resolved by an earlier strategy is
never overwritten" and "later strategies only attempt still-missing
ranks". -/
theorem later_strategy_overwrites :
    strat1Results (descendants docC2) 4 = [(1, "Boston Celtics")] ∧
    parse_top_teams_from_article "u" docC2 4 =
      Except.ok ["Atlanta Hawks", "Chicago Bulls", "Miami Heat", "Utah Jazz"] :=
  ⟨by decide, rfl⟩

/-- C5: if the marker-adjacency scan (strategy 1) alone resolves all
`topN` ranks, the parse returns exactly strategy 1's mapping, and the
branch trace shows strategies 2 and 3 are never executed. -/
theorem strat1_shortcircuit (url : String) (article : Node) (topN : Nat)
    (h : topN ≤ (strat1Results (descendants article) topN).length) :
    parse_top_teams_from_article url article topN =
      Except.ok ((rankRange topN).map (lookupD (strat1Results (descendants article) topN))) ∧
    strategiesRun article topN = [1] := by
  refine ⟨?_, ?_⟩
  · rw [parse_top_teams_from_article, if_pos h]
  · rw [strategiesRun, if_pos h]

/-- Witness document for C5: markers `#1`…`#4`, each followed by a
`/team/` link to a roster team. -/
def docC5 : Node := .tag "article" none [
  .text "#1", .tag "a" (some "/team/hawks/") [.text "Atlanta Hawks"],
  .text "#2", .tag "a" (some "/team/celtics/") [.text "Boston Celtics"],
  .text "#3", .tag "a" (some "/team/nets/") [.text "Brooklyn Nets"],
  .text "#4", .tag "a" (some "/team/hornets/") [.text "Charlotte Hornets"]]

/-- Witness for C5, applied at `docC5`. -/
theorem strat1_shortcircuit_witness :
    4 ≤ (strat1Results (descendants docC5) 4).length ∧
    parse_top_teams_from_article "u" docC5 4 =
      Except.ok ["Atlanta Hawks", "Boston Celtics", "Brooklyn Nets", "Charlotte Hornets"] ∧
    strategiesRun docC5 4 = [1] := by
  have h : 4 ≤ (strat1Results (descendants docC5) 4).length := by decide
  obtain ⟨h1, h2⟩ := strat1_shortcircuit "u" docC5 4 h
  refine ⟨h, ?_, h2⟩
  rw [h1]
  rfl

/-! ## ScheduleAggregator: `upcoming_opponents_next_week` (main9, main8, main1)

Dates are day numbers (`Int`); `dt.date.today()` is the explicit `today`
parameter; the per-source HTTP loaders become explicit input batches. -/

/-- A normalized game record `{date, home, away}`. -/
structure Game where
  date : Int
  home : String
  away : String

/-- An opponent entry `(date, opponent, "HOME"/"AWAY")`. -/
abbrev Entry := Int × String × String

/-- `by_team[k].append(e)` on a `defaultdict(list)` (insertion order). -/
def addEntry : List (String × List Entry) → String → Entry → List (String × List Entry)
  | [], k, e => [(k, [e])]
  | (k1, es) :: rest, k, e =>
    if k1 = k then (k1, es ++ [e]) :: rest else (k1, es) :: addEntry rest k e

/-- Python's stable `list.sort(key=lambda x: x[0])`: insertion sort by the
date component is stable, hence extensionally equal to Python's sort. -/
def sortByDate (es : List Entry) : List Entry :=
  List.insertionSort (fun a b => a.1 ≤ b.1) es

/-- The two `if _clean(·) in want` appends shared by the merge loops. -/
def addPair (want : List String) (bt : List (String × List Entry)) (d : Int) (h a : String) :
    List (String × List Entry) :=
  let bt1 := if want.contains (_clean h) then addEntry bt h (d, a, "HOME") else bt
  if want.contains (_clean a) then addEntry bt1 a (d, h, "AWAY") else bt1

/-- `add_game` of main9.py's merge: window filter then the two appends. -/
def addGame9 (today endD : Int) (want : List String) (bt : List (String × List Entry))
    (g : Game) : List (String × List Entry) :=
  if today ≤ g.date ∧ g.date ≤ endD then addPair want bt g.date g.home g.away else bt

/-- `upcoming_opponents_next_week` of main9.py: today's live batch and the
day-granular future batch go through the same `add_game`, then each team's
list is sorted by date. -/
def upcoming_opponents_next_week9 (today : Int) (todaysGames futureGames : List Game)
    (teams : List String) (days : Int) : List (String × List Entry) :=
  let endD := today + days - 1
  let want := teams.map _clean
  let bt := (todaysGames ++ futureGames).foldl (addGame9 today endD want) []
  bt.map (fun p => (p.1, sortByDate p.2))

/-- `sched_by_date[cur]` of main8.py: league-schedule records inside the
window, grouped by date (grouping preserves input order). -/
def schedFor (today endD : Int) (leagueSchedule : List Game) (cur : Int) : List Game :=
  leagueSchedule.filter (fun g => today ≤ g.date && g.date ≤ endD && g.date = cur)

/-- `upcoming_opponents_next_week` of main8.py: today's live games are
added with NO date filter; the `while cur <= end` loop over
`today+1 .. end` takes the window-filtered, date-indexed schedule. -/
def upcoming_opponents_next_week8 (today : Int) (todaysGames leagueSchedule : List Game)
    (teams : List String) (days : Int) : List (String × List Entry) :=
  let endD := today + days - 1
  let want := teams.map _clean
  let bt0 := todaysGames.foldl (fun bt g => addPair want bt g.date g.home g.away) []
  let futureDays := (List.range (endD - today).toNat).map (fun (i : Nat) => today + 1 + (i : Int))
  let bt1 := futureDays.foldl
    (fun bt cur => (schedFor today endD leagueSchedule cur).foldl
      (fun bt g => addPair want bt cur g.home g.away) bt) bt0
  bt1.map (fun p => (p.1, sortByDate p.2))

theorem foldl_ext {α β : Type} {f g : β → α → β} : ∀ (l : List α) (b : β),
    (∀ x ∈ l, ∀ acc, f acc x = g acc x) → l.foldl f b = l.foldl g b
  | [], _, _ => rfl
  | x :: l, b, h => by
    rw [List.foldl_cons, List.foldl_cons, h x (List.mem_cons_self _ _) b]
    exact foldl_ext l _ (fun y hy => h y (List.mem_cons_of_mem _ hy))

theorem schedFor_filter_ne_today {today endD cur : Int} (hcur : cur ≠ today)
    (leagueSchedule : List Game) :
    schedFor today endD (leagueSchedule.filter (fun g => g.date ≠ today)) cur =
      schedFor today endD leagueSchedule cur := by
  rw [schedFor, schedFor, List.filter_filter]
  apply List.filter_congr
  intro g _
  by_cases hd : g.date = cur
  · have hne : g.date ≠ today := by rw [hd]; exact hcur
    simp [hd, hne, hcur]
  · simp [hd]

/-- C3 (amended): in main8's merge the season-schedule source cannot
contribute today-dated entries — deleting every today-dated record from
the league-schedule batch leaves the output unchanged ("discarded even if
present").  In main9's merge, by contrast, the other-source batch is
filtered only to the window, so a today-dated record there IS included
(see the counterexample): live-source exclusivity for today holds there
only because the caller queries the day-granular feed from tomorrow on. -/
theorem merge8_discards_today_schedule (today : Int) (todaysGames leagueSchedule : List Game)
    (teams : List String) (days : Int) :
    upcoming_opponents_next_week8 today todaysGames leagueSchedule teams days =
      upcoming_opponents_next_week8 today todaysGames
        (leagueSchedule.filter (fun g => g.date ≠ today)) teams days := by
  rw [upcoming_opponents_next_week8, upcoming_opponents_next_week8]
  congr 1
  apply foldl_ext
  intro cur hcur acc
  obtain ⟨i, hir, hi⟩ := List.mem_map.mp hcur
  have hne : cur ≠ today := by
    intro hc
    rw [← hi] at hc
    omega
  rw [schedFor_filter_ne_today hne]

/-- C3 counterexample: main9's merge lets the non-live (future/day-granular)
batch contribute a today-dated entry — with an empty live batch, a
future-batch record dated `today` appears in the output, and removing it
changes the output to empty. -/
theorem merge9_keeps_today_from_future :
    upcoming_opponents_next_week9 0 [] [⟨0, "Boston Celtics", "Denver Nuggets"⟩]
      ["Boston Celtics"] 7 = [("Boston Celtics", [(0, "Denver Nuggets", "HOME")])] ∧
    upcoming_opponents_next_week9 0 [] [] ["Boston Celtics"] 7 = [] :=
  ⟨rfl, rfl⟩

theorem mem_addEntry_entry : ∀ (bt : List (String × List Entry)) (k : String) (e0 : Entry)
    (t : String) (es : List Entry), (t, es) ∈ addEntry bt k e0 → ∀ e1 ∈ es,
    (∃ es2, (t, es2) ∈ bt ∧ e1 ∈ es2) ∨ e1 = e0
  | [], k, e0, t, es, hmem, e1, he1 => by
    simp only [addEntry, List.mem_singleton, Prod.mk.injEq] at hmem
    obtain ⟨_, hes⟩ := hmem
    subst hes
    exact Or.inr (List.mem_singleton.mp he1)
  | (k1, es1) :: rest, k, e0, t, es, hmem, e1, he1 => by
    rw [addEntry] at hmem
    by_cases hk : k1 = k
    · rw [if_pos hk] at hmem
      rcases List.mem_cons.mp hmem with h | h
      · have ht : t = k1 := congrArg Prod.fst h
        have hes : es = es1 ++ [e0] := congrArg Prod.snd h
        rw [hes] at he1
        rcases List.mem_append.mp he1 with h2 | h2
        · exact Or.inl ⟨es1, by rw [ht]; exact List.mem_cons_self _ _, h2⟩
        · exact Or.inr (List.mem_singleton.mp h2)
      · exact Or.inl ⟨es, List.mem_cons_of_mem _ h, he1⟩
    · rw [if_neg hk] at hmem
      rcases List.mem_cons.mp hmem with h | h
      · have ht : t = k1 := congrArg Prod.fst h
        have hes : es = es1 := congrArg Prod.snd h
        exact Or.inl ⟨es1, by rw [ht]; exact List.mem_cons_self _ _, hes ▸ he1⟩
      · rcases mem_addEntry_entry rest k e0 t es h e1 he1 with ⟨es2, hm, hmm⟩ | h2
        · exact Or.inl ⟨es2, List.mem_cons_of_mem _ hm, hmm⟩
        · exact Or.inr h2

/-- Any entry of `addPair want bt d h a` is an old entry or is dated `d`. -/
theorem mem_addPair_entry (want : List String) (bt : List (String × List Entry))
    (d : Int) (h a : String) (t : String) (es : List Entry)
    (hmem : (t, es) ∈ addPair want bt d h a) (e1 : Entry) (he1 : e1 ∈ es) :
    (∃ es2, (t, es2) ∈ bt ∧ e1 ∈ es2) ∨ e1.1 = d := by
  rw [addPair] at hmem
  by_cases hh : want.contains (_clean h)
  · rw [if_pos hh] at hmem
    by_cases ha : want.contains (_clean a)
    · rw [if_pos ha] at hmem
      rcases mem_addEntry_entry _ _ _ _ _ hmem e1 he1 with ⟨es2, hm, hin⟩ | hq
      · rcases mem_addEntry_entry _ _ _ _ _ hm e1 hin with h2 | hq
        · exact Or.inl h2
        · exact Or.inr (by rw [hq])
      · exact Or.inr (by rw [hq])
    · rw [if_neg ha] at hmem
      rcases mem_addEntry_entry _ _ _ _ _ hmem e1 he1 with h2 | hq
      · exact Or.inl h2
      · exact Or.inr (by rw [hq])
  · rw [if_neg hh] at hmem
    by_cases ha : want.contains (_clean a)
    · rw [if_pos ha] at hmem
      rcases mem_addEntry_entry _ _ _ _ _ hmem e1 he1 with h2 | hq
      · exact Or.inl h2
      · exact Or.inr (by rw [hq])
    · rw [if_neg ha] at hmem
      exact Or.inl ⟨es, hmem, he1⟩

theorem foldl_addGame9_window (today endD : Int) (want : List String) :
    ∀ (gs : List Game) (bt : List (String × List Entry)),
    (∀ t es, (t, es) ∈ bt → ∀ e ∈ es, today ≤ e.1 ∧ e.1 ≤ endD) →
    ∀ t es, (t, es) ∈ gs.foldl (addGame9 today endD want) bt → ∀ e ∈ es,
      today ≤ e.1 ∧ e.1 ≤ endD
  | [], bt, hbt, t, es, hmem, e, he => hbt t es hmem e he
  | g :: gs, bt, hbt, t, es, hmem, e, he => by
    refine foldl_addGame9_window today endD want gs (addGame9 today endD want bt g)
      ?_ t es hmem e he
    intro t2 es2 hm2 e2 he2
    rw [addGame9] at hm2
    by_cases hw : today ≤ g.date ∧ g.date ≤ endD
    · rw [if_pos hw] at hm2
      rcases mem_addPair_entry want bt g.date g.home g.away t2 es2 hm2 e2 he2 with
        ⟨es3, hm3, hin3⟩ | hd
      · exact hbt t2 es3 hm3 e2 hin3
      · rw [hd]
        exact hw
    · rw [if_neg hw] at hm2
      exact hbt t2 es2 hm2 e2 he2

/-- C4 (amended): every opponent entry main9's merge returns is dated
inside the window `[today, today + days - 1]` (both ends inclusive); in
particular for `days = 7` between `today` and `today + 6`.  main1's
aggregator does NOT satisfy this bound: its `date_range_days` helper is
inclusive of both endpoints and spans `days + 1` dates (see the
counterexample). -/
theorem merge9_window (today : Int) (todaysGames futureGames : List Game)
    (teams : List String) (days : Int) (team : String) (es : List Entry) (e : Entry)
    (hteam : (team, es) ∈ upcoming_opponents_next_week9 today todaysGames futureGames teams days)
    (he : e ∈ es) : today ≤ e.1 ∧ e.1 ≤ today + days - 1 := by
  rw [upcoming_opponents_next_week9] at hteam
  obtain ⟨⟨t0, es0⟩, hmem0, heq⟩ := List.mem_map.mp hteam
  have hes0 : sortByDate es0 = es := congrArg Prod.snd heq
  have he0 : e ∈ es0 := by
    rw [← hes0] at he
    exact (List.perm_insertionSort _ es0).mem_iff.mp he
  exact foldl_addGame9_window today (today + days - 1) (teams.map _clean)
    (todaysGames ++ futureGames) [] (by intro t es1 h; exact absurd h (List.not_mem_nil _))
    t0 es0 hmem0 e he0

/-- Witness for C4's amended theorem at a concrete input. -/
theorem merge9_window_witness :
    ((("Boston Celtics", [((0 : Int), "Denver Nuggets", "HOME")]) ∈
        upcoming_opponents_next_week9 0 [⟨0, "Boston Celtics", "Denver Nuggets"⟩] []
          ["Boston Celtics"] 7) ∧
      ((0 : Int), "Denver Nuggets", "HOME") ∈ [((0 : Int), "Denver Nuggets", "HOME")]) ∧
    (0 : Int) ≤ (0 : Int) ∧ (0 : Int) ≤ 0 + 7 - 1 :=
  ⟨⟨by decide, by decide⟩,
    merge9_window 0 [⟨0, "Boston Celtics", "Denver Nuggets"⟩] [] ["Boston Celtics"] 7
      "Boston Celtics" [((0 : Int), "Denver Nuggets", "HOME")]
      ((0 : Int), "Denver Nuggets", "HOME") (by decide) (by decide)⟩

/-! ### main1's aggregator (C4 counterexample) -/

/-- `date_range_days` of main1.py: `[start + timedelta(days=i) for i in
range(days + 1)]` — both endpoints included, hence `days + 1` dates. -/
def date_range_days (start : Int) (days : Nat) : List Int :=
  (List.range (days + 1)).map (fun i => start + i)

/-- A raw scoreboard game of main1.py (team ids and tricodes). -/
structure SbGame where
  hid : String
  vid : String
  htri : String
  vtri : String

/-- One entry of main1.py's `teams_index` (its `.values()` view). -/
structure IdxEntry where
  teamId : String
  tricode : String
  fullName : String
  nickname : String

/-- `full_by_tid` of main1.py: canonical full name via teamId, then
tricode, then `fallback_tri or tid`. -/
def full_by_tid (idx : List IdxEntry) (tid ftri : String) : String :=
  match idx.find? (fun e => e.teamId = tid) with
  | some e => e.fullName
  | none =>
    match idx.find? (fun e => e.tricode = ftri) with
    | some e => e.fullName
    | none => if ftri ≠ "" then ftri else tid

/-- `upcoming_opponents_next_week` of main1.py: for each date of
`date_range_days(today, days)` fetch that day's scoreboard (the explicit
`scoreboard` function stands for the per-date HTTP fetch) and collect
home/away entries for the requested team ids. -/
def upcoming_opponents_next_week1 (today : Int) (scoreboard : Int → List SbGame)
    (team_ids : List String) (idx : List IdxEntry) (days : Nat) :
    List (String × List Entry) :=
  let bt := (date_range_days today days).foldl
    (fun bt d => (scoreboard d).foldl
      (fun bt g =>
        let bt1 := if team_ids.contains g.hid then
            addEntry bt g.hid (d, full_by_tid idx g.vid g.vtri, "HOME") else bt
        if team_ids.contains g.vid then
          addEntry bt1 g.vid (d, full_by_tid idx g.hid g.htri, "AWAY") else bt1) bt) []
  bt.map (fun p => (p.1, sortByDate p.2))

/-- The single game on day `today + 7` used by the C4 counterexample. -/
def sbC4 (d : Int) : List SbGame :=
  if d = 7 then [⟨"1610612738", "1610612743", "BOS", "DEN"⟩] else []

def idxC4 : List IdxEntry :=
  [⟨"1610612738", "BOS", "Boston Celtics", "Celtics"⟩,
   ⟨"1610612743", "DEN", "Denver Nuggets", "Nuggets"⟩]

/-- C4 counterexample: with `days = 7` main1's aggregator returns an entry
dated `today + 7` (here `today = 0`), outside `[today, today + 6]` —
`date_range_days` spans eight dates. -/
theorem merge1_exceeds_window :
    upcoming_opponents_next_week1 0 sbC4 ["1610612738"] idxC4 7 =
      [("1610612738", [(7, "Denver Nuggets", "HOME")])] ∧
    ¬((7 : Int) ≤ 0 + 7 - 1) :=
  ⟨rfl, by omega⟩

/-! ## Article selection (main8.py lines 102-157)

`dt.datetime` values are embedded as `PyDt`: `t` is the timestamp in
microseconds since `datetime.min` (year 1, Jan 1, 00:00:00) — for an
aware value, after subtracting the UTC offset — and `aware` records
whether `tzinfo` is set.  Python compares naive datetimes field-wise
(equivalently by `t`) and aware ones by UTC instant, and raises
`TypeError` when awareness is mixed. -/

structure PyDt where
  aware : Bool
  t : Int
deriving DecidableEq

/-- `dt.datetime.min.replace(tzinfo=None)`: year 1, Jan 1, 00:00, naive. -/
def dtMinNaive : PyDt := ⟨false, 0⟩

/-- `a < b` on `dt.datetime`: mixed awareness raises `TypeError`. -/
def pyDtLt (a b : PyDt) : Except String Bool :=
  if a.aware = b.aware then .ok (decide (a.t < b.t))
  else .error "TypeError: cannot compare offset-naive and offset-aware datetimes"

def isLeap (y : Nat) : Bool := (y % 4 == 0 && y % 100 != 0) || y % 400 == 0

def daysInMonth (y m : Nat) : Nat :=
  if m = 2 then (if isLeap y then 29 else 28)
  else if m = 4 || m = 6 || m = 9 || m = 11 then 30
  else 31

def daysBeforeMonth (y m : Nat) : Nat :=
  ((List.range' 1 (m - 1)).map (daysInMonth y)).sum

/-- Proleptic-Gregorian ordinal of a date (`datetime.toordinal`). -/
def toOrdinal (y m d : Nat) : Nat :=
  365 * (y - 1) + (y - 1) / 4 + (y - 1) / 400 - (y - 1) / 100 + daysBeforeMonth y m + d

/-- Microseconds from `datetime.min` to the (naive) datetime fields. -/
def dtUs (y m d hh mm ss : Nat) : Nat :=
  ((toOrdinal y m d - 1) * 86400 + hh * 3600 + mm * 60 + ss) * 1000000

/-- The `datetime` constructor: validates the fields (out-of-range values
raise `ValueError`, which `_extract_publish_time`'s `except` turns into
trying the next format, i.e. `none` here); `off` is the UTC offset in
microseconds when a `%z` directive matched. -/
def mkDatetime (y m d hh mm ss : Nat) (off : Option Int) : Option PyDt :=
  if 1 ≤ y && y ≤ 9999 && 1 ≤ m && m ≤ 12 && 1 ≤ d && d ≤ daysInMonth y m &&
      hh ≤ 23 && mm ≤ 59 && ss ≤ 59 then
    match off with
    | none => some ⟨false, (dtUs y m d hh mm ss : Int)⟩
    | some o => some ⟨true, (dtUs y m d hh mm ss : Int) - o⟩
  else none

/-! `datetime.strptime` component regexes (CPython `_strptime.TimeRE`),
matched greedily with the listed alternation order; since every component
is followed by a non-digit (a separator, `Z`, `%z` or the end-of-string
check), the greedy first-match is exactly the regex semantics.  The
format string is compiled with `re.IGNORECASE`, so literal letters match
either case. -/

/-- `%Y`: `\d\d\d\d`. -/
def pY : List Char → Option (Nat × List Char)
  | a :: b :: c :: d :: rest =>
    if a.isDigit && b.isDigit && c.isDigit && d.isDigit then
      some (1000 * digitVal a + 100 * digitVal b + 10 * digitVal c + digitVal d, rest)
    else none
  | _ => none

/-- `%m`: `1[0-2]|0[1-9]|[1-9]`. -/
def pm : List Char → Option (Nat × List Char)
  | a :: b :: rest =>
    if a = '1' && ('0' ≤ b && b ≤ '2') then some (10 + digitVal b, rest)
    else if a = '0' && ('1' ≤ b && b ≤ '9') then some (digitVal b, rest)
    else if '1' ≤ a && a ≤ '9' then some (digitVal a, b :: rest)
    else none
  | [a] => if '1' ≤ a && a ≤ '9' then some (digitVal a, []) else none
  | [] => none

/-- `%d`: `3[01]|[12]\d|0[1-9]|[1-9]`. -/
def pd : List Char → Option (Nat × List Char)
  | a :: b :: rest =>
    if a = '3' && ('0' ≤ b && b ≤ '1') then some (30 + digitVal b, rest)
    else if ('1' ≤ a && a ≤ '2') && b.isDigit then some (10 * digitVal a + digitVal b, rest)
    else if a = '0' && ('1' ≤ b && b ≤ '9') then some (digitVal b, rest)
    else if '1' ≤ a && a ≤ '9' then some (digitVal a, b :: rest)
    else none
  | [a] => if '1' ≤ a && a ≤ '9' then some (digitVal a, []) else none
  | [] => none

/-- `%H`: `2[0-3]|[0-1]\d|\d`. -/
def pH : List Char → Option (Nat × List Char)
  | a :: b :: rest =>
    if a = '2' && ('0' ≤ b && b ≤ '3') then some (20 + digitVal b, rest)
    else if ('0' ≤ a && a ≤ '1') && b.isDigit then some (10 * digitVal a + digitVal b, rest)
    else if a.isDigit then some (digitVal a, b :: rest)
    else none
  | [a] => if a.isDigit then some (digitVal a, []) else none
  | [] => none

/-- `%M`: `[0-5]\d|\d`. -/
def pM : List Char → Option (Nat × List Char)
  | a :: b :: rest =>
    if ('0' ≤ a && a ≤ '5') && b.isDigit then some (10 * digitVal a + digitVal b, rest)
    else if a.isDigit then some (digitVal a, b :: rest)
    else none
  | [a] => if a.isDigit then some (digitVal a, []) else none
  | [] => none

/-- `%S`: `6[0-1]|[0-5]\d|\d`. -/
def pS : List Char → Option (Nat × List Char)
  | a :: b :: rest =>
    if a = '6' && ('0' ≤ b && b ≤ '1') then some (60 + digitVal b, rest)
    else if ('0' ≤ a && a ≤ '5') && b.isDigit then some (10 * digitVal a + digitVal b, rest)
    else if a.isDigit then some (digitVal a, b :: rest)
    else none
  | [a] => if a.isDigit then some (digitVal a, []) else none
  | [] => none

/-- A literal format character, case-insensitive (`re.IGNORECASE`). -/
def pLit (c : Char) : List Char → Option (List Char)
  | x :: rest => if x.toLower = c.toLower then some rest else none
  | [] => none

/-- Two digits, `\d\d` (the `%z` hour field). -/
def pdd2 : List Char → Option (Nat × List Char)
  | a :: b :: rest =>
    if a.isDigit && b.isDigit then some (10 * digitVal a + digitVal b, rest) else none
  | _ => none

/-- `[0-5]\d` (the `%z` minute and second fields). -/
def p05d : List Char → Option (Nat × List Char)
  | a :: b :: rest =>
    if ('0' ≤ a && a ≤ '5') && b.isDigit then some (10 * digitVal a + digitVal b, rest)
    else none
  | _ => none

/-- Up to `n` further digits of the `%z` fraction (`\.\d{1,6}`, greedy). -/
def pfracDigits : Nat → List Char → (List Char × List Char)
  | 0, l => ([], l)
  | _ + 1, [] => ([], [])
  | n + 1, c :: rest =>
    if c.isDigit then
      let pr := pfracDigits n rest
      (c :: pr.1, pr.2)
    else ([], c :: rest)

/-- The fraction digits padded to microseconds
(`int(gmtoff_remainder + "0" * (6 - len(...)))`). -/
def fracVal (ds : List Char) : Nat :=
  (ds.foldl (fun a c => 10 * a + digitVal c) 0) * 10 ^ (6 - ds.length)

/-- The optional `%z` seconds group `(:?[0-5]\d(\.\d{1,6})?)?`: returns
(whether a `:` preceded the seconds, seconds, fraction in µs, rest). -/
def pzSec (l : List Char) : Option (Bool × Nat × Nat × List Char) :=
  let pc : Bool × List Char := match l with
    | ':' :: r => (true, r)
    | _ => (false, l)
  match p05d pc.2 with
  | none => none
  | some (ss, l2) =>
    match l2 with
    | '.' :: c :: r =>
      if c.isDigit then
        let pr := pfracDigits 5 r
        some (pc.1, ss, fracVal (c :: pr.1), pr.2)
      else some (pc.1, ss, 0, '.' :: c :: r)
    | _ => some (pc.1, ss, 0, l2)

/-- `datetime.timezone(timedelta(...))` accepts only offsets strictly
inside ±24 h; an out-of-range offset raises `ValueError` (→ `none`). -/
def mkZOff (neg : Bool) (us : Nat) : Option Int :=
  if us < 86400000000 then some (if neg then -(us : Int) else (us : Int)) else none

/-- `%z` after the sign: hours `\d\d`, optional `:`, minutes `[0-5]\d`,
optional seconds group.  CPython's conversion step rejects inconsistent
colon use between the two separators (`ValueError`, → `none`). -/
def pzBody (neg : Bool) (l : List Char) : Option (Int × List Char) :=
  match pdd2 l with
  | none => none
  | some (hh, r1) =>
    let pc1 : Bool × List Char := match r1 with
      | ':' :: r => (true, r)
      | _ => (false, r1)
    match p05d pc1.2 with
    | none => none
    | some (mm, r2) =>
      match pzSec r2 with
      | none => (mkZOff neg ((hh * 3600 + mm * 60) * 1000000)).map (fun o => (o, r2))
      | some (c2, ss, fr, r3) =>
        if pc1.1 = c2 then
          (mkZOff neg ((hh * 3600 + mm * 60 + ss) * 1000000 + fr)).map (fun o => (o, r3))
        else none

/-- `%z`: `[+-]\d\d:?[0-5]\d(:?[0-5]\d(\.\d{1,6})?)?|(?-i:Z)` — the bare
`Z` alternative is case-sensitive and means UTC. -/
def pz : List Char → Option (Int × List Char)
  | 'Z' :: rest => some (0, rest)
  | '+' :: rest => pzBody false rest
  | '-' :: rest => pzBody true rest
  | _ => none

/-- `dt.datetime.strptime(s, "%Y-%m-%dT%H:%M:%SZ")` — note the trailing
`Z` is a case-insensitive literal, so the result is NAIVE. -/
def strptime1 (s : String) : Option PyDt := do
  let (y, r) ← pY s.toList
  let r ← pLit '-' r
  let (m, r) ← pm r
  let r ← pLit '-' r
  let (d, r) ← pd r
  let r ← pLit 'T' r
  let (hh, r) ← pH r
  let r ← pLit ':' r
  let (mm, r) ← pM r
  let r ← pLit ':' r
  let (ss, r) ← pS r
  let r ← pLit 'Z' r
  if r = [] then mkDatetime y m d hh mm ss none else none

/-- `dt.datetime.strptime(s, "%Y-%m-%dT%H:%M:%S%z")` — a `%z` match
attaches a `timezone`, so the result is AWARE (`t` shifted to UTC). -/
def strptime2 (s : String) : Option PyDt := do
  let (y, r) ← pY s.toList
  let r ← pLit '-' r
  let (m, r) ← pm r
  let r ← pLit '-' r
  let (d, r) ← pd r
  let r ← pLit 'T' r
  let (hh, r) ← pH r
  let r ← pLit ':' r
  let (mm, r) ← pM r
  let r ← pLit ':' r
  let (ss, r) ← pS r
  let (off, r) ← pz r
  if r = [] then mkDatetime y m d hh mm ss (some off) else none

/-- `dt.datetime.strptime(s, "%Y-%m-%d")`: midnight, naive. -/
def strptime3 (s : String) : Option PyDt := do
  let (y, r) ← pY s.toList
  let r ← pLit '-' r
  let (m, r) ← pm r
  let r ← pLit '-' r
  let (d, r) ← pd r
  if r = [] then mkDatetime y m d 0 0 0 none else none

/-- `_extract_publish_time` of main8.py (lines 102-116), for documents
carrying no `<time datetime=…>` element (the model's pages provide the
publish metadata as the content of the first matching `<meta>` tag, or
`none`): the three `strptime` formats are tried in order; an empty
content string is falsy, so it is skipped; when nothing parses the
function returns `None`. -/
def _extract_publish_time (metaContent : Option String) : Option PyDt :=
  match metaContent with
  | none => none
  | some c =>
    if c = "" then none
    else match strptime1 c with
      | some v => some v
      | none =>
        match strptime2 c with
        | some v => some v
        | none => strptime3 c

/-- The outcome of fetching one candidate url (main8.py lines 146-153):
`fail` is a raised `session.get` (caught: `continue`); a `page` carries
the HTTP status, whether `_looks_like_power_rankings_article` holds of
its soup, and the publish `<meta>` content handed to
`_extract_publish_time`. -/
inductive Fetch where
  | fail : Fetch
  | page (status : Nat) (looksLike : Bool) (metaContent : Option String) : Fetch

/-- One iteration of the scoring loop (main8.py lines 145-156): skip on
exception, non-200 status or implausible page, else score the url with
its publish time, defaulting to naive `datetime.min`
(`ts = _extract_publish_time(soup) or dt.datetime.min.replace(tzinfo=None)`). -/
def scoreCandidate (fetch : String → Fetch) (u : String) : Option (PyDt × String) :=
  match fetch u with
  | .fail => none
  | .page status looksLike metaContent =>
    if status ≠ 200 then none
    else if !looksLike then none
    else some ((_extract_publish_time metaContent).getD dtMinNaive, u)

/-- `scored` (main8.py lines 144-156): the plausible candidates among the
first 12, in order, each with its timestamp. -/
def scoreCandidates (fetch : String → Fetch) (urls : List String) : List (PyDt × String) :=
  urls.filterMap (scoreCandidate fetch)

/-- Insert into a sorted-descending-by-timestamp list, propagating the
`TypeError` a mixed-awareness comparison raises: the element goes after
every strictly later entry (a stable descending sort, as
`sorted(..., reverse=True)` is). -/
def insDescE (x : PyDt × String) : List (PyDt × String) →
    Except String (List (PyDt × String))
  | [] => .ok [x]
  | y :: ys =>
    match pyDtLt x.1 y.1 with
    | .error e => .error e
    | .ok true =>
      match insDescE x ys with
      | .error e => .error e
      | .ok r => .ok (y :: r)
    | .ok false => .ok (x :: y :: ys)

/-- `sorted(scored, key=lambda x: x[0], reverse=True)`: a stable
descending comparison sort whose `<` comparisons can raise. -/
def sortDescE : List (PyDt × String) → Except String (List (PyDt × String))
  | [] => .ok []
  | x :: xs =>
    match sortDescE xs with
    | .error e => .error e
    | .ok r => insDescE x r

/-- `get_latest_power_rankings_article` of main8.py from the deduplicated
candidate list on (lines 141-157): empty list raises `RuntimeError`;
otherwise the first 12 candidates are fetched and scored, and the result
is `sorted(scored, key=lambda x: x[0], reverse=True)[0][1]` when any
scored, else `ordered[0]`.  The sort at line 157 sits OUTSIDE the
per-candidate `try`/`except`, so a comparison `TypeError` escapes. -/
def get_latest_power_rankings_article (fetch : String → Fetch)
    (ordered : List String) : Except String String :=
  match ordered with
  | [] => .error "RuntimeError: Could not find any Power Rankings article links on index pages."
  | u0 :: rest =>
    if (scoreCandidates fetch (List.take 12 (u0 :: rest))).isEmpty then .ok u0
    else
      match sortDescE (scoreCandidates fetch (List.take 12 (u0 :: rest))) with
      | .error e => .error e
      | .ok [] => .error "IndexError: list index out of range"
      | .ok (p :: _) => .ok p.2

/-- The descending sort order on scored pairs: `b`'s key at most `a`'s. -/
def keyGe (a b : PyDt × String) : Prop := b.1.t ≤ a.1.t

instance : DecidableRel keyGe := fun a b => Int.decLe b.1.t a.1.t

instance : IsTotal (PyDt × String) keyGe := ⟨fun a b => Int.le_total b.1.t a.1.t⟩

instance : IsTrans (PyDt × String) keyGe := ⟨fun _ _ _ h1 h2 => le_trans h2 h1⟩

theorem insDescE_eq (x : PyDt × String) (l : List (PyDt × String))
    (h : ∀ y ∈ l, y.1.aware = x.1.aware) :
    insDescE x l = .ok (List.orderedInsert keyGe x l) := by
  induction l with
  | nil => rfl
  | cons y ys ih =>
    have hy : x.1.aware = y.1.aware := (h y (List.mem_cons_self _ _)).symm
    rw [insDescE, List.orderedInsert, pyDtLt, if_pos hy]
    by_cases hlt : x.1.t < y.1.t
    · rw [decide_eq_true hlt, if_neg (show ¬keyGe x y from not_le.mpr hlt),
        ih (fun z hz => h z (List.mem_cons_of_mem _ hz))]
    · rw [decide_eq_false hlt, if_pos (show keyGe x y from not_lt.mp hlt)]

theorem sortDescE_eq (l : List (PyDt × String))
    (h : ∀ p ∈ l, ∀ q ∈ l, p.1.aware = q.1.aware) :
    sortDescE l = .ok (List.insertionSort keyGe l) := by
  induction l with
  | nil => rfl
  | cons x xs ih =>
    rw [sortDescE,
      ih (fun p hp q hq => h p (List.mem_cons_of_mem _ hp) q (List.mem_cons_of_mem _ hq)),
      List.insertionSort]
    exact insDescE_eq x _ (fun y hy =>
      h y (List.mem_cons_of_mem _ ((List.perm_insertionSort keyGe xs).subset hy))
        x (List.mem_cons_self _ _))

/-- C6 (amended): from a nonempty deduplicated candidate list, provided
every scored timestamp agrees in timezone-awareness, selection returns
the first candidate when none of the first 12 is plausible, and
otherwise a plausible candidate whose publish timestamp (naive
`datetime.min` when nothing parsed) is maximal among the scored ones;
with mixed awareness the sort comparison raises instead (see the
counterexample). -/
theorem select_latest_uniform (fetch : String → Fetch) (ordered : List String)
    (h0 : ordered ≠ [])
    (huni : ∀ p ∈ scoreCandidates fetch (ordered.take 12),
        ∀ q ∈ scoreCandidates fetch (ordered.take 12), p.1.aware = q.1.aware) :
    (scoreCandidates fetch (ordered.take 12) = [] ∧
        get_latest_power_rankings_article fetch ordered = .ok (ordered.headD "")) ∨
      (∃ p, p ∈ scoreCandidates fetch (ordered.take 12) ∧
        get_latest_power_rankings_article fetch ordered = .ok p.2 ∧
        ∀ q ∈ scoreCandidates fetch (ordered.take 12), q.1.t ≤ p.1.t) := by
  cases ordered with
  | nil => exact absurd rfl h0
  | cons u0 rest =>
    by_cases hsc : scoreCandidates fetch ((u0 :: rest).take 12) = []
    · left
      refine ⟨hsc, ?_⟩
      rw [get_latest_power_rankings_article, if_pos (by rw [hsc]; rfl)]
      rfl
    · right
      have hueq := sortDescE_eq _ huni
      have hperm := List.perm_insertionSort keyGe
        (scoreCandidates fetch (List.take 12 (u0 :: rest)))
      have hsorted := List.sorted_insertionSort keyGe
        (scoreCandidates fetch (List.take 12 (u0 :: rest)))
      cases hs : List.insertionSort keyGe
          (scoreCandidates fetch (List.take 12 (u0 :: rest))) with
      | nil =>
        rw [hs] at hperm
        exact absurd hperm.symm.eq_nil hsc
      | cons p s2 =>
        refine ⟨p, ?_, ?_, ?_⟩
        · exact hperm.subset (hs ▸ List.mem_cons_self p s2)
        · rw [get_latest_power_rankings_article,
            if_neg (by simpa using hsc), hueq, hs]
        · intro q hq
          have hq2 : q ∈ p :: s2 := by rw [← hs]; exact hperm.mem_iff.mpr hq
          rcases List.mem_cons.mp hq2 with h | h
          · rw [h]
          · exact List.rel_of_sorted_cons (hs ▸ hsorted) q h

def fetchW : String → Fetch := fun u =>
  if u = "wa" then Fetch.page 200 true (some "2024-05-01")
  else Fetch.page 200 true none

/-- Witness for `select_latest_uniform` at a concrete two-candidate
input whose scored timestamps are both naive. -/
theorem select_latest_uniform_witness :
    (["wa", "wb"] ≠ ([] : List String)) ∧
    ((scoreCandidates fetchW (["wa", "wb"].take 12) = [] ∧
        get_latest_power_rankings_article fetchW ["wa", "wb"] =
          .ok (["wa", "wb"].headD "")) ∨
      (∃ p, p ∈ scoreCandidates fetchW (["wa", "wb"].take 12) ∧
        get_latest_power_rankings_article fetchW ["wa", "wb"] = .ok p.2 ∧
        ∀ q ∈ scoreCandidates fetchW (["wa", "wb"].take 12), q.1.t ≤ p.1.t)) :=
  ⟨by decide, select_latest_uniform fetchW ["wa", "wb"] (by decide) (by decide)⟩

def fetchMixed : String → Fetch := fun u =>
  if u = "m1" then Fetch.page 200 true (some "2025-03-04T05:06:07+01:00")
  else Fetch.page 200 true none

/-- C6 counterexample: one plausible candidate with an offset-format
publish time (aware) and one with no parseable time (naive
`datetime.min` fallback) make the selection raise `TypeError` rather
than return the latest-stamped candidate. -/
theorem select_mixed_awareness_raises :
    get_latest_power_rankings_article fetchMixed ["m1", "m2"] =
      .error "TypeError: cannot compare offset-naive and offset-aware datetimes" := rfl

def fetchC10 : String → Fetch := fun u =>
  if u = "https://www.nba.com/news/power-rankings-week-3" then
    Fetch.page 200 true (some "2025-01-02T03:04:05+00:00")
  else Fetch.page 200 true none

/-- C10 (code_bug): the timestamp comparison in article selection is NOT
total — a meta `article:published_time` of `2025-01-02T03:04:05+00:00`
parses via `%Y-%m-%dT%H:%M:%S%z` to an aware datetime, a page with no
parseable time falls back to naive `datetime.min`, and
`sorted(scored, key=lambda x: x[0], reverse=True)` at main8.py line 157,
which sits outside the per-candidate `try`/`except`, raises `TypeError`
instead of returning an article url. -/
theorem timestamp_sort_mixed_typeerror :
    (_extract_publish_time (some "2025-01-02T03:04:05+00:00")).map PyDt.aware =
      some true ∧
    _extract_publish_time none = none ∧
    get_latest_power_rankings_article fetchC10
        ["https://www.nba.com/news/power-rankings-week-3",
         "https://www.nba.com/news/power-rankings-notebook"] =
      .error "TypeError: cannot compare offset-naive and offset-aware datetimes" :=
  ⟨rfl, rfl, rfl⟩

end NbaPR
